import Mathlib

/-
  Verification development for the gravity cluster lifecycle manager.

  The definitions below are shallow embeddings of the Go sources:
  * lib/fsm/kubernetes.go          (GetUpsertBootstrapResourceFunc)
  * the ui status helper           (GetUninstallStatus)
  * the keyval storage fragment    (ttl, v1codec)
  and, for the execution-engine properties, a model built from the
  design document (plan model, validation, scheduling, rollback);
  those definitions carry doc comments starting with the words
  Modelled from the spec.
-/

set_option maxHeartbeats 1000000

namespace Gravity

/-! ## Storage backend TTL computation (lib storage keyval fragment) -/

/-- Modelled from the spec: the constant `forever` used by the keyval
backend for entries with no expiration is defined outside the shown
fragment.  For the underlying key-value stores a TTL of zero nanoseconds
means that the entry does not expire, so `forever` is zero. -/
def forever : Int := 0

/-- Translation of `func ttl(clock clockwork.Clock, t time.Time) time.Duration`
from the keyval fragment.  Go `time.Time` instants are represented as
integer nanoseconds since the epoch, with the zero value of `time.Time`
represented by `0`; `time.Duration` is an integer count of nanoseconds.
The `clock` argument is represented by the instant `now` it would return
from `Now()`; the `UTC()` conversions in the source do not change the
instant and are therefore invisible in this representation. -/
def ttl (now t : Int) : Int :=
  if t = 0 then forever
  else if t - now < 0 then forever
  else t - now

/-! ## Kubernetes bootstrap resource upsert (lib/fsm/kubernetes.go) -/

/-- Result of `rigging.ConvertError` applied to a Kubernetes client error:
what matters to the upsert logic is whether `trace.IsAlreadyExists` holds
of the converted error.  `message` keeps distinct errors distinguishable. -/
structure K8sError where
  alreadyExists : Bool
  message : String
deriving DecidableEq

/-- The `runtime.Object` argument of the upsert function, discriminated by
its concrete Go type exactly as the `switch resource := object.(type)`
in the source does.  `unsupported` stands for every other concrete type. -/
inductive K8sObject where
  | clusterRole (name : String)
  | clusterRoleBinding (name : String)
  | podSecurityPolicy (name : String)
  | unsupported (description : String)
deriving DecidableEq

/-- The slice of `kubernetes.Clientset` the upsert function uses: the
Create and Update calls for the three supported resource kinds.  Each is
represented by the error outcome it produces for a given resource name
(`none` is a nil error, that is success). -/
structure Clientset where
  createClusterRole : String → Option K8sError
  updateClusterRole : String → Option K8sError
  createClusterRoleBinding : String → Option K8sError
  updateClusterRoleBinding : String → Option K8sError
  createPodSecurityPolicy : String → Option K8sError
  updatePodSecurityPolicy : String → Option K8sError

/-- Error returned by the upsert function: either a (wrapped, conversion
preserving) Kubernetes client error, or the `trace.BadParameter` error for
an unsupported resource type.  The formatted message of the BadParameter
error is not modelled. -/
inductive UpsertError where
  | k8s (e : K8sError)
  | badParameter
deriving DecidableEq

/-- A Kubernetes API call performed by the upsert function, recorded so
that theorems can speak about which calls were made and in which order. -/
inductive APICall where
  | create (object : K8sObject)
  | update (object : K8sObject)
deriving DecidableEq

/-- Translation of the closure returned by `GetUpsertBootstrapResourceFunc`.
Besides the error result it also returns the list of Kubernetes API calls
performed, in order.  `trace.Wrap` preserves the wrapped error and is
therefore invisible.  Each branch mirrors the corresponding `case` of the
type switch in the source: Create first; on a nil error return nil; on an
error that is not AlreadyExists return it; otherwise Update and return its
error if any. -/
def GetUpsertBootstrapResourceFunc (client : Clientset) (object : K8sObject) :
    List APICall × Option UpsertError :=
  match object with
  | .clusterRole name =>
    match client.createClusterRole name with
    | none => ([.create object], none)
    | some err =>
      if err.alreadyExists then
        match client.updateClusterRole name with
        | none => ([.create object, .update object], none)
        | some err2 => ([.create object, .update object], some (.k8s err2))
      else ([.create object], some (.k8s err))
  | .clusterRoleBinding name =>
    match client.createClusterRoleBinding name with
    | none => ([.create object], none)
    | some err =>
      if err.alreadyExists then
        match client.updateClusterRoleBinding name with
        | none => ([.create object, .update object], none)
        | some err2 => ([.create object, .update object], some (.k8s err2))
      else ([.create object], some (.k8s err))
  | .podSecurityPolicy name =>
    match client.createPodSecurityPolicy name with
    | none => ([.create object], none)
    | some err =>
      if err.alreadyExists then
        match client.updatePodSecurityPolicy name with
        | none => ([.create object, .update object], none)
        | some err2 => ([.create object, .update object], some (.k8s err2))
      else ([.create object], some (.k8s err))
  | .unsupported _ => ([], some .badParameter)

/-- Whether the object is one of the three bootstrap resource kinds the
type switch in the source supports. -/
def K8sObject.supported : K8sObject → Bool
  | .unsupported _ => false
  | _ => true

/-- View of the Create call the source performs for a supported object. -/
def clientCreate (client : Clientset) : K8sObject → Option K8sError
  | .clusterRole name => client.createClusterRole name
  | .clusterRoleBinding name => client.createClusterRoleBinding name
  | .podSecurityPolicy name => client.createPodSecurityPolicy name
  | .unsupported _ => none

/-- View of the Update call the source performs for a supported object. -/
def clientUpdate (client : Clientset) : K8sObject → Option K8sError
  | .clusterRole name => client.updateClusterRole name
  | .clusterRoleBinding name => client.updateClusterRoleBinding name
  | .podSecurityPolicy name => client.updatePodSecurityPolicy name
  | .unsupported _ => none

/-! ## Uninstall status projection (ui fragment) -/

/-- Errors produced by `ops.GetLastUninstallOperation`, discriminated by
whether `trace.IsNotFound` holds of the error. -/
inductive OpsError where
  | notFound
  | other (message : String)
deriving DecidableEq

/-- Whether `trace.IsNotFound` holds of the error. -/
def OpsError.isNotFound : OpsError → Bool
  | .notFound => true
  | .other _ => false

/-- The `ops.ProgressEntry` fields read by `GetUninstallStatus`. -/
structure ProgressEntry where
  state : String
  message : String
  step : Int
  operationID : String
deriving DecidableEq

/-- The `uninstallStatus` struct of the ui fragment. -/
structure UninstallStatus where
  clusterName : String
  state : String
  step : Int
  message : String
  operationID : String
deriving DecidableEq

/-- The `ops.OperationStateCompleted` constant.  Its literal value is
defined outside the shown fragment; the theorems below only depend on the
constant itself, never on its spelling. -/
def OperationStateCompleted : String := "completed"

/-- Translation of `GetUninstallStatus`.  The `operator` argument is
represented by the outcome of the single `ops.GetLastUninstallOperation`
call the function makes: an error, or a possibly-nil progress entry.
`trace.Wrap` preserves the wrapped error.  The zero values of the Go
struct fields are the empty string and zero. -/
def GetUninstallStatus (clusterName : String)
    (getLast : Except OpsError (Option ProgressEntry)) :
    Except OpsError UninstallStatus :=
  let uninstallStatus : UninstallStatus :=
    { clusterName := clusterName
      state := OperationStateCompleted
      step := 0
      message := ""
      operationID := "" }
  match getLast with
  | .error err =>
    if err.isNotFound then .ok uninstallStatus
    else .error err
  | .ok none => .ok uninstallStatus
  | .ok (some progressEntry) =>
    .ok { uninstallStatus with
            state := progressEntry.state
            message := progressEntry.message
            step := progressEntry.step
            operationID := progressEntry.operationID }

/-! ## The v1codec of the keyval fragment

Go strings and byte slices are represented as lists of byte values
(naturals below 256); base64 text is a list of ASCII codes. -/

/-- ASCII code of the standard base64 alphabet character for a six-bit
value, as used by `encoding/base64` StdEncoding. -/
def encChar (s : Nat) : Nat :=
  if s < 26 then 65 + s
  else if s < 52 then 97 + (s - 26)
  else if s < 62 then 48 + (s - 52)
  else if s = 62 then 43
  else 47

/-- ASCII code of the base64 padding character. -/
def padChar : Nat := 61

/-- Inverse of the standard base64 alphabet: the six-bit value denoted by
an ASCII code, or `none` when the code is not in the alphabet. -/
def decChar (c : Nat) : Option Nat :=
  if 65 ≤ c ∧ c ≤ 90 then some (c - 65)
  else if 97 ≤ c ∧ c ≤ 122 then some (c - 97 + 26)
  else if 48 ≤ c ∧ c ≤ 57 then some (c - 48 + 52)
  else if c = 43 then some 62
  else if c = 47 then some 63
  else none

/-- Model of `base64.StdEncoding.EncodeToString`: bytes are consumed in
groups of three, producing four alphabet characters per full group and a
padded final group for a one or two byte remainder. -/
def base64Encode : List Nat → List Nat
  | [] => []
  | [b0] => [encChar (b0 / 4), encChar (b0 % 4 * 16), padChar, padChar]
  | [b0, b1] =>
    [encChar (b0 / 4), encChar (b0 % 4 * 16 + b1 / 16), encChar (b1 % 16 * 4), padChar]
  | b0 :: b1 :: b2 :: rest =>
    encChar (b0 / 4) :: encChar (b0 % 4 * 16 + b1 / 16) ::
      encChar (b1 % 16 * 4 + b2 / 64) :: encChar (b2 % 64) :: base64Encode rest

/-- Model of `base64.StdEncoding.DecodeString`: the input length must be a
multiple of four, padding may appear only in the final group, and (as in
the default, non-Strict Go decoder) trailing bits of a padded group are
not checked.  `none` models a `CorruptInputError`. -/
def base64Decode : List Nat → Option (List Nat)
  | [] => some []
  | c0 :: c1 :: c2 :: c3 :: rest =>
    match decChar c0, decChar c1 with
    | some s0, some s1 =>
      if c2 = padChar then
        if c3 = padChar ∧ rest = [] then some [s0 * 4 + s1 / 16] else none
      else
        match decChar c2 with
        | some s2 =>
          if c3 = padChar then
            if rest = [] then some [s0 * 4 + s1 / 16, s1 % 16 * 16 + s2 / 4] else none
          else
            match decChar c3 with
            | some s3 =>
              match base64Decode rest with
              | some bs =>
                some ((s0 * 4 + s1 / 16) :: (s1 % 16 * 16 + s2 / 4) :: (s2 % 4 * 64 + s3) :: bs)
              | none => none
            | none => none
        | none => none
    | _, _ => none
  | _ => none

/-- Translation of `v1codec.EncodeBytesToString`: base64-encode the bytes;
the Go function never returns an error. -/
def EncodeBytesToString (data : List Nat) : List Nat := base64Encode data

/-- Translation of `v1codec.DecodeBytesFromString`: base64-decode, wrapping
a decoding failure into an error (`none`). -/
def DecodeBytesFromString (val : List Nat) : Option (List Nat) := base64Decode val

/-- Translation of `v1codec.EncodeToString`: `json.Marshal` the value and
base64-encode the result.  `json.Marshal` is external to the repository
and is represented by the `jsonMarshal` argument (`none` is a marshal
error, making the whole encode fail). -/
def EncodeToString {V : Type} (jsonMarshal : V → Option (List Nat)) (val : V) :
    Option (List Nat) :=
  (jsonMarshal val).map base64Encode

/-- Translation of `v1codec.DecodeFromString`: base64-decode the string and
`json.Unmarshal` the resulting bytes; `json.Unmarshal` is external and is
represented by the `jsonUnmarshal` argument. -/
def DecodeFromString {V : Type} (jsonUnmarshal : List Nat → Option V) (val : List Nat) :
    Option V :=
  (base64Decode val).bind jsonUnmarshal

/-! ## Plan model and execution engine

The plan model and the execution engine are not part of the available
source fragment (only the design document describes them), so everything
in this section is modelled from the spec, as the doc comments state. -/

/-- Modelled from the spec (section 3): the per-phase states of the state
machine, also used for the plan-level aggregate. -/
inductive PhaseState where
  | unstarted
  | inProgress
  | completed
  | failed
  | rolledBack
deriving DecidableEq

/-- Modelled from the spec (section 3): one phase of a plan.  The spec
also lists `Description`, `ActionKind`, `Data`, `Attempts` and
`LastError`; those fields do not influence the scheduling, dependency and
rollback rules modelled here (handler dispatch and the retry budget are
abstracted into the `handlerOk` parameter of `Step`), so they are
omitted. -/
structure Phase where
  id : String
  dependencies : List String
  exclusivityKey : String
  state : PhaseState
deriving DecidableEq

/-- Modelled from the spec (section 3): a plan.  `Version` is
optimistic-concurrency bookkeeping of the persistence adapter and plays no
role in the scheduling rules; the plan-level aggregate state is the
projection `planAggregate` below. -/
structure Plan where
  operationID : String
  phases : List Phase
deriving DecidableEq

/-- State of the phase with the given id, read off a phase list; a phase
that does not exist reads as `unstarted`. -/
def lookupState : List Phase → String → PhaseState
  | [], _ => .unstarted
  | ph :: rest, x => if ph.id = x then ph.state else lookupState rest x

/-- Dependencies of the phase with the given id. -/
def lookupDeps : List Phase → String → List String
  | [], _ => []
  | ph :: rest, x => if ph.id = x then ph.dependencies else lookupDeps rest x

/-- Exclusivity key of the phase with the given id; a phase that does not
exist reads as the empty (absent) key. -/
def lookupKey : List Phase → String → String
  | [], _ => ""
  | ph :: rest, x => if ph.id = x then ph.exclusivityKey else lookupKey rest x

/-- Rewrite the state of the phase with the given id. -/
def setPhases (l : List Phase) (x : String) (st : PhaseState) : List Phase :=
  l.map (fun ph => if ph.id = x then { ph with state := st } else ph)

/-- The ids of the phases of a plan, in plan order. -/
def phaseIDs (p : Plan) : List String := p.phases.map Phase.id

/-- Whether a phase with this id exists in the plan. -/
def IsPhase (p : Plan) (x : String) : Prop := x ∈ phaseIDs p

/-- State of a phase of the plan. -/
def stateOf (p : Plan) (x : String) : PhaseState := lookupState p.phases x

/-- Dependencies of a phase of the plan. -/
def depsOf (p : Plan) (x : String) : List String := lookupDeps p.phases x

/-- Exclusivity key of a phase of the plan. -/
def keyOf (p : Plan) (x : String) : String := lookupKey p.phases x

/-- Plan with the state of one phase rewritten: the persisted phase state
transition of the engine. -/
def setState (p : Plan) (x : String) (st : PhaseState) : Plan :=
  { p with phases := setPhases p.phases x st }

/-- Modelled from the spec (section 3): the edge relation of the
dependency graph: `DepStep p x y` holds when phase `x` declares a
dependency on `y`. -/
def DepStep (p : Plan) (x y : String) : Prop := y ∈ depsOf p x

/-- Modelled from the spec (section 4.1): the dependency graph contains a
cycle, that is some node reaches itself through one or more dependency
edges. -/
def HasCycle (p : Plan) : Prop := ∃ x, Relation.TransGen (DepStep p) x x

/-- Bounded reachability in an adjacency-list graph: true when some path
of length between one and `k` edges leads from `x` to `y`. -/
def reachableB (adj : String → List String) : Nat → String → String → Bool
  | 0, _, _ => false
  | k + 1, x, y => (adj x).any (fun z => z == y || reachableB adj k z y)

/-- Modelled from the spec (section 4.1): the executable cycle check used
by `Validate`: some phase reaches itself through dependency edges.  A
simple cycle visits each phase at most once, so paths one longer than the
phase count suffice. -/
def hasCycleB (p : Plan) : Bool :=
  (phaseIDs p).any (fun x => reachableB (depsOf p) (p.phases.length + 1) x x)

/-- Modelled from the spec (sections 4.1 and 7): the validation errors. -/
inductive ValidateError where
  | ErrDuplicatePhase
  | ErrInvalidReference
  | ErrCyclicDependency
deriving DecidableEq

/-- Modelled from the spec (section 4.1): `Validate` rejects duplicate
phase ids, dependency references to phases outside the plan, and cyclic
dependency graphs, and accepts everything else.  The spec fixes no
precedence between the three rules; this model checks duplicates, then
references, then cycles. -/
def Validate (p : Plan) : Option ValidateError :=
  if ¬ (phaseIDs p).Nodup then some .ErrDuplicatePhase
  else if ¬ ∀ ph ∈ p.phases, ∀ d ∈ ph.dependencies, d ∈ phaseIDs p then
    some .ErrInvalidReference
  else if hasCycleB p then some .ErrCyclicDependency
  else none

/-- Modelled from the spec (section 4.4, scheduling rule 1): a phase is
eligible to start when it is Unstarted, all its dependencies are
Completed, and its exclusivity key (when non-empty) does not collide with
the key of any currently InProgress phase. -/
def canStart (p : Plan) (x : String) : Prop :=
  stateOf p x = .unstarted
  ∧ (∀ d ∈ depsOf p x, stateOf p d = .completed)
  ∧ (∀ y ∈ phaseIDs p, stateOf p y = .inProgress →
      keyOf p x = "" ∨ keyOf p y ≠ keyOf p x)

/-- Observable scheduling events of a forward execution. -/
inductive Label where
  | start (x : String)
  | succeed (x : String)
  | fail (x : String)
deriving DecidableEq

/-- Modelled from the spec (section 4.4): one transition of the forward
execution state machine.  `handlerOk x` abstracts the Execute handler of
phase `x` together with its retry budget: true when some attempt returns
nil, false when every attempt of the budget returns an error.  Retries
happen while the phase stays InProgress, so a phase leaves InProgress
either to Completed (`succeed`) or, with its budget exhausted, to Failed
(`fail`). -/
inductive Step (handlerOk : String → Bool) : Plan → Label → Plan → Prop where
  | start (p : Plan) (x : String) (hx : IsPhase p x) (hc : canStart p x) :
      Step handlerOk p (.start x) (setState p x .inProgress)
  | succeed (p : Plan) (x : String) (hs : stateOf p x = .inProgress)
      (hok : handlerOk x = true) :
      Step handlerOk p (.succeed x) (setState p x .completed)
  | fail (p : Plan) (x : String) (hs : stateOf p x = .inProgress)
      (hok : handlerOk x = false) :
      Step handlerOk p (.fail x) (setState p x .failed)

/-- A forward execution: a sequence of transitions with its event list. -/
inductive Trace (handlerOk : String → Bool) : Plan → List Label → Plan → Prop where
  | done (p : Plan) : Trace handlerOk p [] p
  | step (p q r : Plan) (l : Label) (labs : List Label) :
      Step handlerOk p l q → Trace handlerOk q labs r → Trace handlerOk p (l :: labs) r

/-- Modelled from the spec (section 4.4, scheduling rule 4): forward
execution has ended: no phase is InProgress and no Unstarted phase has all
dependencies Completed.  With no phase InProgress the exclusivity rule
cannot block, so exactly the terminal states of `Step` are described. -/
def Terminal (p : Plan) : Prop :=
  ∀ x ∈ phaseIDs p, stateOf p x ≠ .inProgress
    ∧ (stateOf p x = .unstarted → ¬ ∀ d ∈ depsOf p x, stateOf p d = .completed)

/-- Modelled from the spec (section 4.4, plan-level aggregate): the
aggregate state of a plan as a projection of its phase states: Completed
when every phase is Completed, otherwise Failed when some phase is Failed,
otherwise InProgress when execution has begun, otherwise Unstarted.  The
RolledBack aggregate of a finished rollback sweep is not modelled. -/
def planAggregate (p : Plan) : PhaseState :=
  if ∀ x ∈ phaseIDs p, stateOf p x = .completed then .completed
  else if ∃ x ∈ phaseIDs p, stateOf p x = .failed then .failed
  else if ∃ x ∈ phaseIDs p, stateOf p x ≠ .unstarted then .inProgress
  else .unstarted

/-- Modelled from the spec (section 4.4, rollback algorithm): phase `x`
may be rolled back when it is Completed and every phase depending on it is
no longer Completed (nor InProgress): its Completed dependents must have
been rolled back first.  Rollback handler failures are outside this
model: a rollback invocation always transitions Completed to RolledBack. -/
def canRollback (p : Plan) (x : String) : Prop :=
  stateOf p x = .completed
  ∧ ∀ g ∈ phaseIDs p, x ∈ depsOf p g →
      stateOf p g ≠ .completed ∧ stateOf p g ≠ .inProgress

/-- Modelled from the spec (section 4.4): one rollback invocation of the
sweep, labelled by the phase rolled back. -/
inductive RbStep : Plan → String → Plan → Prop where
  | roll (p : Plan) (x : String) (h : canRollback p x) :
      RbStep p x (setState p x .rolledBack)

/-- A rollback sweep: a sequence of rollback invocations, in order. -/
inductive RbTrace : Plan → List String → Plan → Prop where
  | done (p : Plan) : RbTrace p [] p
  | step (p q r : Plan) (x : String) (seq : List String) :
      RbStep p x q → RbTrace q seq r → RbTrace p (x :: seq) r

/-- The rollback sweep has finished: no phase can be rolled back. -/
def RbTerminal (p : Plan) : Prop := ∀ x ∈ phaseIDs p, ¬ canRollback p x

/-- The plan obtained from `p` by reassigning every phase state according
to `σ`: execution rewrites phase states and nothing else, which the shape
lemmas below express through this projection. -/
def PlanView (p : Plan) (σ : String → PhaseState) : Plan :=
  { operationID := p.operationID
    phases := p.phases.map (fun ph => { ph with state := σ ph.id }) }

/-- Every phase of the plan is Unstarted: a freshly built plan. -/
def AllUnstarted (p : Plan) : Prop := ∀ ph ∈ p.phases, ph.state = .unstarted

instance (p : Plan) (x : String) : Decidable (IsPhase p x) := by
  unfold IsPhase
  infer_instance

instance (p : Plan) (x : String) : Decidable (canStart p x) := by
  unfold canStart
  infer_instance

instance (p : Plan) : Decidable (Terminal p) := by
  unfold Terminal
  infer_instance

instance (p : Plan) (x : String) : Decidable (canRollback p x) := by
  unfold canRollback
  infer_instance

instance (p : Plan) : Decidable (RbTerminal p) := by
  unfold RbTerminal
  infer_instance

instance (p : Plan) : Decidable (AllUnstarted p) := by
  unfold AllUnstarted
  infer_instance

/-- Modelled from the spec (sections 4.4 and 5): the inductive invariant a
forward execution maintains from a fresh plan: execution only rewrites
phase states; a phase that has started has all its dependencies Completed
(the happens-before guarantee); Completed and Failed phases record their
handler outcome; no phase is RolledBack during forward execution; and no
two InProgress phases share a non-empty exclusivity key. -/
def EngineInv (handlerOk : String → Bool) (p0 u : Plan) : Prop :=
  u = PlanView p0 (stateOf u)
  ∧ (∀ x, stateOf u x ≠ .unstarted →
      IsPhase p0 x ∧ ∀ d ∈ depsOf p0 x, stateOf u d = .completed)
  ∧ (∀ x, stateOf u x = .completed → handlerOk x = true)
  ∧ (∀ x, stateOf u x = .failed → handlerOk x = false)
  ∧ (∀ x, stateOf u x ≠ .rolledBack)
  ∧ (∀ x y, x ≠ y → stateOf u x = .inProgress → stateOf u y = .inProgress →
      keyOf p0 x = "" ∨ keyOf p0 x ≠ keyOf p0 y)

instance (p : Plan) (x y : String) : Decidable (DepStep p x y) := by
  unfold DepStep
  infer_instance

/-- Concrete example: one failing phase `f` with a dependent phase `g`. -/
def planC5 : Plan :=
  { operationID := "op5"
    phases := [
      { id := "f", dependencies := [], exclusivityKey := "", state := .unstarted },
      { id := "g", dependencies := ["f"], exclusivityKey := "", state := .unstarted }] }

/-- `planC5` after phase `f` was started and exhausted its retry budget. -/
def planC5failed : Plan :=
  { operationID := "op5"
    phases := [
      { id := "f", dependencies := [], exclusivityKey := "", state := .failed },
      { id := "g", dependencies := ["f"], exclusivityKey := "", state := .unstarted }] }

/-- Concrete example: phase `F` depends on phase `A` and fails after `A`
completes. -/
def planC3 : Plan :=
  { operationID := "op3"
    phases := [
      { id := "A", dependencies := [], exclusivityKey := "", state := .unstarted },
      { id := "F", dependencies := ["A"], exclusivityKey := "", state := .unstarted }] }

/-- The handler outcomes for `planC3`: `A` succeeds, everything else fails. -/
def handlerC3 : String → Bool := fun x => x == "A"

/-- `planC3` at the end of forward execution: `A` Completed, `F` Failed. -/
def planC3done : Plan :=
  { operationID := "op3"
    phases := [
      { id := "A", dependencies := [], exclusivityKey := "", state := .completed },
      { id := "F", dependencies := ["A"], exclusivityKey := "", state := .failed }] }

/-- `planC3done` after the rollback sweep rolled back `A`. -/
def planC3rolled : Plan :=
  { operationID := "op3"
    phases := [
      { id := "A", dependencies := [], exclusivityKey := "", state := .rolledBack },
      { id := "F", dependencies := ["A"], exclusivityKey := "", state := .failed }] }

/-- Concrete example: a two-phase chain, `B` depending on `A`. -/
def planC6 : Plan :=
  { operationID := "op6"
    phases := [
      { id := "A", dependencies := [], exclusivityKey := "", state := .unstarted },
      { id := "B", dependencies := ["A"], exclusivityKey := "", state := .unstarted }] }

/-- `planC6` persisted mid-execution: `A` Completed, `B` InProgress. -/
def planC6mid : Plan :=
  { operationID := "op6"
    phases := [
      { id := "A", dependencies := [], exclusivityKey := "", state := .completed },
      { id := "B", dependencies := ["A"], exclusivityKey := "", state := .inProgress }] }

/-- `planC6` at the end of execution: both phases Completed. -/
def planC6done : Plan :=
  { operationID := "op6"
    phases := [
      { id := "A", dependencies := [], exclusivityKey := "", state := .completed },
      { id := "B", dependencies := ["A"], exclusivityKey := "", state := .completed }] }

/-- The example from the spec: two independent phases with distinct
exclusivity keys. -/
def planC7 : Plan :=
  { operationID := "op7"
    phases := [
      { id := "A", dependencies := [], exclusivityKey := "k1", state := .unstarted },
      { id := "B", dependencies := [], exclusivityKey := "k2", state := .unstarted }] }

/-- `planC7` with both phases dispatched concurrently. -/
def planC7both : Plan :=
  { operationID := "op7"
    phases := [
      { id := "A", dependencies := [], exclusivityKey := "k1", state := .inProgress },
      { id := "B", dependencies := [], exclusivityKey := "k2", state := .inProgress }] }

theorem decChar_encChar : ∀ s, s < 64 → decChar (encChar s) = some s := by decide

theorem encChar_ne_padChar : ∀ s, s < 64 → encChar s ≠ padChar := by decide

theorem base64_roundtrip :
    ∀ b : List Nat, (∀ x ∈ b, x < 256) → base64Decode (base64Encode b) = some b
  | [], _ => rfl
  | [b0], h => by
    have hb0 : b0 < 256 := h b0 (by simp)
    have e0 : decChar (encChar (b0 / 4)) = some (b0 / 4) :=
      decChar_encChar _ (by omega)
    have e1 : decChar (encChar (b0 % 4 * 16)) = some (b0 % 4 * 16) :=
      decChar_encChar _ (by omega)
    simp [base64Encode, base64Decode, e0, e1]
    omega
  | [b0, b1], h => by
    have hb0 : b0 < 256 := h b0 (by simp)
    have hb1 : b1 < 256 := h b1 (by simp)
    have e0 : decChar (encChar (b0 / 4)) = some (b0 / 4) :=
      decChar_encChar _ (by omega)
    have e1 : decChar (encChar (b0 % 4 * 16 + b1 / 16)) = some (b0 % 4 * 16 + b1 / 16) :=
      decChar_encChar _ (by omega)
    have e2 : decChar (encChar (b1 % 16 * 4)) = some (b1 % 16 * 4) :=
      decChar_encChar _ (by omega)
    have n2 : encChar (b1 % 16 * 4) ≠ padChar := encChar_ne_padChar _ (by omega)
    simp [base64Encode, base64Decode, e0, e1, e2, n2]
    constructor <;> omega
  | b0 :: b1 :: b2 :: rest, h => by
    have hb0 : b0 < 256 := h b0 (by simp)
    have hb1 : b1 < 256 := h b1 (by simp)
    have hb2 : b2 < 256 := h b2 (by simp)
    have ih := base64_roundtrip rest (fun x hx => h x (by simp [hx]))
    have e0 : decChar (encChar (b0 / 4)) = some (b0 / 4) :=
      decChar_encChar _ (by omega)
    have e1 : decChar (encChar (b0 % 4 * 16 + b1 / 16)) = some (b0 % 4 * 16 + b1 / 16) :=
      decChar_encChar _ (by omega)
    have e2 : decChar (encChar (b1 % 16 * 4 + b2 / 64)) = some (b1 % 16 * 4 + b2 / 64) :=
      decChar_encChar _ (by omega)
    have e3 : decChar (encChar (b2 % 64)) = some (b2 % 64) :=
      decChar_encChar _ (by omega)
    have n2 : encChar (b1 % 16 * 4 + b2 / 64) ≠ padChar := encChar_ne_padChar _ (by omega)
    have n3 : encChar (b2 % 64) ≠ padChar := encChar_ne_padChar _ (by omega)
    simp [base64Encode, base64Decode, e0, e1, e2, e3, n2, n3, ih]
    refine ⟨by omega, by omega, by omega⟩

/-! ## Lookup and state-update lemmas -/

theorem lookupState_setPhases (l : List Phase) (x y : String) (st : PhaseState) :
    lookupState (setPhases l x st) y =
      if y = x ∧ x ∈ l.map Phase.id then st else lookupState l y := by
  induction l with
  | nil => simp [setPhases, lookupState]
  | cons a t ih =>
    simp only [setPhases, List.map_cons] at ih ⊢
    by_cases h1 : a.id = x
    · by_cases h2 : a.id = y
      · have hyx : y = x := h2.symm.trans h1
        subst hyx
        simp [lookupState, h1]
      · have hyx : ¬ y = x := fun h => h2 (h1.trans h.symm)
        simp only [lookupState, if_pos h1, if_neg h2, List.mem_cons, ih]
        simp [hyx]
    · by_cases h2 : a.id = y
      · have hyx : ¬ y = x := fun h => h1 (h2.trans h)
        simp only [lookupState, if_neg h1, if_pos h2, List.mem_cons]
        simp [hyx]
      · have h1' : ¬ x = a.id := fun h => h1 h.symm
        simp only [lookupState, if_neg h1, if_neg h2, List.mem_cons, ih]
        simp [h1']

theorem stateOf_setState_self (p : Plan) (x : String) (st : PhaseState)
    (hx : IsPhase p x) : stateOf (setState p x st) x = st := by
  show lookupState (setPhases p.phases x st) x = st
  rw [lookupState_setPhases]
  exact if_pos ⟨rfl, hx⟩

theorem stateOf_setState_other (p : Plan) (x y : String) (st : PhaseState)
    (h : y ≠ x) : stateOf (setState p x st) y = stateOf p y := by
  show lookupState (setPhases p.phases x st) y = lookupState p.phases y
  rw [lookupState_setPhases]
  exact if_neg (fun hc => h hc.1)

theorem lookupOther_map (l : List Phase) (g : Phase → Phase)
    (hid : ∀ ph, (g ph).id = ph.id)
    (hdeps : ∀ ph, (g ph).dependencies = ph.dependencies)
    (hkey : ∀ ph, (g ph).exclusivityKey = ph.exclusivityKey) (y : String) :
    lookupDeps (l.map g) y = lookupDeps l y
    ∧ lookupKey (l.map g) y = lookupKey l y
    ∧ (l.map g).map Phase.id = l.map Phase.id := by
  induction l with
  | nil => simp [lookupDeps, lookupKey]
  | cons a t ih =>
    refine ⟨?_, ?_, ?_⟩ <;>
      simp [lookupDeps, lookupKey, hid, hdeps, hkey, ih.1, ih.2.1, ih.2.2]

theorem depsOf_setState (p : Plan) (x : String) (st : PhaseState) (y : String) :
    depsOf (setState p x st) y = depsOf p y := by
  refine (lookupOther_map p.phases _ ?_ ?_ ?_ y).1 <;> intro ph <;>
    by_cases h : ph.id = x <;> simp [h]

theorem keyOf_setState (p : Plan) (x : String) (st : PhaseState) (y : String) :
    keyOf (setState p x st) y = keyOf p y := by
  refine (lookupOther_map p.phases _ ?_ ?_ ?_ y).2.1 <;> intro ph <;>
    by_cases h : ph.id = x <;> simp [h]

theorem phaseIDs_setState (p : Plan) (x : String) (st : PhaseState) :
    phaseIDs (setState p x st) = phaseIDs p := by
  refine (lookupOther_map p.phases _ ?_ ?_ ?_ "").2.2 <;> intro ph <;>
    by_cases h : ph.id = x <;> simp [h]

theorem operationID_setState (p : Plan) (x : String) (st : PhaseState) :
    (setState p x st).operationID = p.operationID := rfl

theorem lookupState_mem_of_ne_unstarted :
    ∀ (l : List Phase) (x : String), lookupState l x ≠ .unstarted →
      x ∈ l.map Phase.id := by
  intro l x
  induction l with
  | nil => intro h; simp [lookupState] at h
  | cons a t ih =>
    intro h
    by_cases h2 : a.id = x
    · simp [List.map_cons, List.mem_cons, h2]
    · simp only [lookupState, if_neg h2] at h
      simp only [List.map_cons, List.mem_cons]
      exact Or.inr (ih h)

theorem isPhase_of_ne_unstarted (p : Plan) (x : String)
    (h : stateOf p x ≠ .unstarted) : IsPhase p x :=
  lookupState_mem_of_ne_unstarted p.phases x h

theorem lookupDeps_mem_of_ne_nil :
    ∀ (l : List Phase) (x : String), lookupDeps l x ≠ [] → x ∈ l.map Phase.id := by
  intro l x
  induction l with
  | nil => intro h; simp [lookupDeps] at h
  | cons a t ih =>
    intro h
    by_cases h2 : a.id = x
    · simp [List.map_cons, List.mem_cons, h2]
    · simp only [lookupDeps, if_neg h2] at h
      simp only [List.map_cons, List.mem_cons]
      exact Or.inr (ih h)

theorem isPhase_of_deps_nonempty (p : Plan) (x : String)
    (h : depsOf p x ≠ []) : IsPhase p x :=
  lookupDeps_mem_of_ne_nil p.phases x h

theorem lookupState_of_all_unstarted :
    ∀ (l : List Phase), (∀ ph ∈ l, ph.state = .unstarted) → ∀ y,
      lookupState l y = .unstarted := by
  intro l
  induction l with
  | nil => intro _ y; simp [lookupState]
  | cons a t ih =>
    intro h y
    by_cases h2 : a.id = y
    · simp [lookupState, h2, h a (by simp)]
    · simp [lookupState, h2, ih (fun ph hph => h ph (by simp [hph])) y]

theorem allUnstarted_stateOf (p : Plan) (h : AllUnstarted p) (y : String) :
    stateOf p y = .unstarted :=
  lookupState_of_all_unstarted p.phases h y

/-! ## Step and trace structure lemmas -/

theorem step_dest {handlerOk : String → Bool} {p : Plan} {l : Label} {q : Plan}
    (h : Step handlerOk p l q) :
    ∃ x st, q = setState p x st ∧ IsPhase p x ∧
      ((l = .start x ∧ st = .inProgress ∧ canStart p x)
        ∨ (l = .succeed x ∧ st = .completed ∧ stateOf p x = .inProgress
            ∧ handlerOk x = true)
        ∨ (l = .fail x ∧ st = .failed ∧ stateOf p x = .inProgress
            ∧ handlerOk x = false)) := by
  cases h with
  | start x hx hc => exact ⟨x, .inProgress, rfl, hx, Or.inl ⟨rfl, rfl, hc⟩⟩
  | succeed x hs hok =>
    exact ⟨x, .completed, rfl, isPhase_of_ne_unstarted p x (by rw [hs]; simp),
      Or.inr (Or.inl ⟨rfl, rfl, hs, hok⟩)⟩
  | fail x hs hok =>
    exact ⟨x, .failed, rfl, isPhase_of_ne_unstarted p x (by rw [hs]; simp),
      Or.inr (Or.inr ⟨rfl, rfl, hs, hok⟩)⟩

theorem step_completed_stable {handlerOk : String → Bool} {p : Plan} {l : Label}
    {q : Plan} (h : Step handlerOk p l q) (d : String)
    (hd : stateOf p d = .completed) : stateOf q d = .completed := by
  obtain ⟨x, st, rfl, hx, hcase⟩ := step_dest h
  by_cases hdx : d = x
  · subst hdx
    rcases hcase with ⟨-, -, hc⟩ | ⟨-, rfl, -, -⟩ | ⟨-, -, hs, -⟩
    · have h1 := hc.1
      rw [hd] at h1
      exact absurd h1 (by decide)
    · exact stateOf_setState_self p d .completed hx
    · rw [hd] at hs
      exact absurd hs (by decide)
  · rw [stateOf_setState_other p x d st hdx]
    exact hd

theorem step_not_completed_stable {handlerOk : String → Bool} {p : Plan} {l : Label}
    {q : Plan} (h : Step handlerOk p l q) (f : String) (hf : handlerOk f = false)
    (hnc : stateOf p f ≠ .completed) : stateOf q f ≠ .completed := by
  obtain ⟨x, st, rfl, hx, hcase⟩ := step_dest h
  by_cases hfx : f = x
  · subst hfx
    rcases hcase with ⟨-, rfl, -⟩ | ⟨-, -, -, hok⟩ | ⟨-, rfl, -, -⟩
    · rw [stateOf_setState_self p f .inProgress hx]
      decide
    · rw [hf] at hok
      cases hok
    · rw [stateOf_setState_self p f .failed hx]
      decide
  · rw [stateOf_setState_other p x f st hfx]
    exact hnc

theorem step_depsOf_eq {handlerOk : String → Bool} {p : Plan} {l : Label} {q : Plan}
    (h : Step handlerOk p l q) (y : String) : depsOf q y = depsOf p y := by
  obtain ⟨x, st, rfl, -, -⟩ := step_dest h
  exact depsOf_setState p x st y

theorem step_keyOf_eq {handlerOk : String → Bool} {p : Plan} {l : Label} {q : Plan}
    (h : Step handlerOk p l q) (y : String) : keyOf q y = keyOf p y := by
  obtain ⟨x, st, rfl, -, -⟩ := step_dest h
  exact keyOf_setState p x st y

theorem step_phaseIDs_eq {handlerOk : String → Bool} {p : Plan} {l : Label} {q : Plan}
    (h : Step handlerOk p l q) : phaseIDs q = phaseIDs p := by
  obtain ⟨x, st, rfl, -, -⟩ := step_dest h
  exact phaseIDs_setState p x st

theorem trace_depsOf_eq {handlerOk : String → Bool} {p : Plan} {labs : List Label}
    {u : Plan} (h : Trace handlerOk p labs u) (y : String) : depsOf u y = depsOf p y := by
  induction h with
  | done p => rfl
  | step p q r l labs hs ht ih => rw [ih, step_depsOf_eq hs]

theorem trace_keyOf_eq {handlerOk : String → Bool} {p : Plan} {labs : List Label}
    {u : Plan} (h : Trace handlerOk p labs u) (y : String) : keyOf u y = keyOf p y := by
  induction h with
  | done p => rfl
  | step p q r l labs hs ht ih => rw [ih, step_keyOf_eq hs]

theorem trace_phaseIDs_eq {handlerOk : String → Bool} {p : Plan} {labs : List Label}
    {u : Plan} (h : Trace handlerOk p labs u) : phaseIDs u = phaseIDs p := by
  induction h with
  | done p => rfl
  | step p q r l labs hs ht ih => rw [ih, step_phaseIDs_eq hs]

theorem trace_completed_stable {handlerOk : String → Bool} {p : Plan}
    {labs : List Label} {u : Plan} (h : Trace handlerOk p labs u) (d : String)
    (hd : stateOf p d = .completed) : stateOf u d = .completed := by
  induction h with
  | done p => exact hd
  | step p q r l labs hs ht ih => exact ih (step_completed_stable hs d hd)

theorem trace_depStep_eq {handlerOk : String → Bool} {p : Plan} {labs : List Label}
    {u : Plan} (h : Trace handlerOk p labs u) : DepStep u = DepStep p := by
  funext a b
  unfold DepStep
  rw [trace_depsOf_eq h]

theorem trace_append {handlerOk : String → Bool} {p q r : Plan}
    {labs1 labs2 : List Label} (h1 : Trace handlerOk p labs1 q)
    (h2 : Trace handlerOk q labs2 r) : Trace handlerOk p (labs1 ++ labs2) r := by
  induction h1 with
  | done p => exact h2
  | step p u v l labs hs ht ih => exact Trace.step _ _ _ _ _ hs (ih h2)

/-! ## PlanView lemmas -/

theorem list_map_congr {α β : Type} :
    ∀ (l : List α) (f g : α → β), (∀ a ∈ l, f a = g a) → l.map f = l.map g := by
  intro l f g
  induction l with
  | nil => intro _; rfl
  | cons a t ih =>
    intro h
    simp [h a (by simp), ih (fun b hb => h b (by simp [hb]))]

theorem list_map_id_of_eq {α : Type} :
    ∀ (l : List α) (f : α → α), (∀ a ∈ l, f a = a) → l.map f = l := by
  intro l f
  induction l with
  | nil => intro _; rfl
  | cons a t ih =>
    intro h
    simp [h a (by simp), ih (fun b hb => h b (by simp [hb]))]

theorem planView_congr (p : Plan) (σ τ : String → PhaseState)
    (h : ∀ i ∈ phaseIDs p, σ i = τ i) : PlanView p σ = PlanView p τ := by
  unfold PlanView
  simp only [Plan.mk.injEq, true_and]
  exact list_map_congr _ _ _
    (fun ph hph => by rw [h ph.id (List.mem_map_of_mem _ hph)])

theorem planView_eq_self (p : Plan) (h : ∀ ph ∈ p.phases, stateOf p ph.id = ph.state) :
    PlanView p (stateOf p) = p := by
  show Plan.mk p.operationID
      (p.phases.map (fun ph => { ph with state := stateOf p ph.id })) = p
  rw [list_map_id_of_eq p.phases _ (fun ph hph => by rw [h ph hph])]

theorem setState_planView (p0 : Plan) (σ : String → PhaseState) (x : String)
    (st : PhaseState) :
    setState (PlanView p0 σ) x st = PlanView p0 (fun y => if y = x then st else σ y) := by
  unfold setState PlanView setPhases
  simp only [List.map_map, Plan.mk.injEq, true_and]
  refine list_map_congr _ _ _ (fun ph _ => ?_)
  cases ph with
  | mk i d k s => by_cases hid : i = x <;> simp [Function.comp, hid]

theorem phaseIDs_planView (p : Plan) (σ : String → PhaseState) :
    phaseIDs (PlanView p σ) = phaseIDs p :=
  (lookupOther_map p.phases (fun ph => { ph with state := σ ph.id })
    (fun _ => rfl) (fun _ => rfl) (fun _ => rfl) "").2.2

theorem depsOf_planView (p : Plan) (σ : String → PhaseState) (y : String) :
    depsOf (PlanView p σ) y = depsOf p y :=
  (lookupOther_map p.phases (fun ph => { ph with state := σ ph.id })
    (fun _ => rfl) (fun _ => rfl) (fun _ => rfl) y).1

theorem keyOf_planView (p : Plan) (σ : String → PhaseState) (y : String) :
    keyOf (PlanView p σ) y = keyOf p y :=
  (lookupOther_map p.phases (fun ph => { ph with state := σ ph.id })
    (fun _ => rfl) (fun _ => rfl) (fun _ => rfl) y).2.1

/-! ## Engine invariant preservation -/

theorem engineInv_self (handlerOk : String → Bool) (p0 : Plan)
    (h0 : AllUnstarted p0) : EngineInv handlerOk p0 p0 := by
  refine ⟨?_, ?_, ?_, ?_, ?_, ?_⟩
  · exact (planView_eq_self p0 (fun ph hph => by
      rw [allUnstarted_stateOf p0 h0 ph.id, h0 ph hph])).symm
  · intro x hx
    exact absurd (allUnstarted_stateOf p0 h0 x) hx
  · intro x hx
    rw [allUnstarted_stateOf p0 h0 x] at hx
    exact absurd hx (by decide)
  · intro x hx
    rw [allUnstarted_stateOf p0 h0 x] at hx
    exact absurd hx (by decide)
  · intro x
    rw [allUnstarted_stateOf p0 h0 x]
    decide
  · intro a b hab ha hb
    rw [allUnstarted_stateOf p0 h0 a] at ha
    exact absurd ha (by decide)

theorem step_engineInv {handlerOk : String → Bool} {p0 p : Plan} {l : Label}
    {q : Plan} (h : Step handlerOk p l q) (hi : EngineInv handlerOk p0 p) :
    EngineInv handlerOk p0 q := by
  obtain ⟨hshape, hA, hB, hC, hS, hM⟩ := hi
  obtain ⟨x, st, hq, hx, hcase⟩ := step_dest h
  subst hq
  have hids : phaseIDs p = phaseIDs p0 := by
    have h1 := congrArg phaseIDs hshape
    rw [phaseIDs_planView] at h1
    exact h1
  have hdeps : ∀ y, depsOf p y = depsOf p0 y := fun y => by
    have h1 := congrArg (fun pl => depsOf pl y) hshape
    simp only at h1
    rw [depsOf_planView] at h1
    exact h1
  have hkey : ∀ y, keyOf p y = keyOf p0 y := fun y => by
    have h1 := congrArg (fun pl => keyOf pl y) hshape
    simp only at h1
    rw [keyOf_planView] at h1
    exact h1
  have hxp0 : IsPhase p0 x := by
    unfold IsPhase at hx ⊢
    rw [← hids]
    exact hx
  have hsu_self : stateOf (setState p x st) x = st := stateOf_setState_self p x st hx
  have hsu_other : ∀ y, y ≠ x → stateOf (setState p x st) y = stateOf p y :=
    fun y hy => stateOf_setState_other p x y st hy
  refine ⟨?_, ?_, ?_, ?_, ?_, ?_⟩
  · conv_lhs => rw [hshape]
    rw [setState_planView]
    apply planView_congr
    intro i hi
    by_cases hix : i = x
    · subst hix
      rw [hsu_self]
      simp
    · rw [hsu_other i hix]
      simp [hix]
  · intro y hy
    by_cases hyx : y = x
    · subst hyx
      rcases hcase with ⟨-, rfl, hc⟩ | ⟨-, rfl, hsx, -⟩ | ⟨-, rfl, hsx, -⟩
      · refine ⟨hxp0, fun d hd => ?_⟩
        rw [← hdeps y] at hd
        exact step_completed_stable h d (hc.2.1 d hd)
      · have hpa := hA y (by rw [hsx]; decide)
        exact ⟨hxp0, fun d hd => step_completed_stable h d (hpa.2 d hd)⟩
      · have hpa := hA y (by rw [hsx]; decide)
        exact ⟨hxp0, fun d hd => step_completed_stable h d (hpa.2 d hd)⟩
    · rw [hsu_other y hyx] at hy
      have hpa := hA y hy
      exact ⟨hpa.1, fun d hd => step_completed_stable h d (hpa.2 d hd)⟩
  · intro y hy
    by_cases hyx : y = x
    · subst hyx
      rw [hsu_self] at hy
      rcases hcase with ⟨-, rfl, -⟩ | ⟨-, -, -, hok⟩ | ⟨-, rfl, -, -⟩
      · exact absurd hy (by decide)
      · exact hok
      · exact absurd hy (by decide)
    · rw [hsu_other y hyx] at hy
      exact hB y hy
  · intro y hy
    by_cases hyx : y = x
    · subst hyx
      rw [hsu_self] at hy
      rcases hcase with ⟨-, rfl, -⟩ | ⟨-, rfl, -, -⟩ | ⟨-, -, -, hok⟩
      · exact absurd hy (by decide)
      · exact absurd hy (by decide)
      · exact hok
    · rw [hsu_other y hyx] at hy
      exact hC y hy
  · intro y
    by_cases hyx : y = x
    · subst hyx
      rw [hsu_self]
      rcases hcase with ⟨-, rfl, -⟩ | ⟨-, rfl, -, -⟩ | ⟨-, rfl, -, -⟩ <;> decide
    · rw [hsu_other y hyx]
      exact hS y
  · intro a b hab ha hb
    by_cases hax : a = x <;> by_cases hbx : b = x
    · exact absurd (hax.trans hbx.symm) hab
    · subst hax
      rw [hsu_self] at ha
      rw [hsu_other b hbx] at hb
      rcases hcase with ⟨-, rfl, hc⟩ | ⟨-, rfl, -, -⟩ | ⟨-, rfl, -, -⟩
      · have hbid : b ∈ phaseIDs p := isPhase_of_ne_unstarted p b (by rw [hb]; decide)
        rcases hc.2.2 b hbid hb with h1 | h1
        · left
          rw [← hkey a]
          exact h1
        · right
          rw [← hkey a, ← hkey b]
          exact fun he => h1 he.symm
      · exact absurd ha (by decide)
      · exact absurd ha (by decide)
    · subst hbx
      rw [hsu_self] at hb
      rw [hsu_other a hax] at ha
      rcases hcase with ⟨-, rfl, hc⟩ | ⟨-, rfl, -, -⟩ | ⟨-, rfl, -, -⟩
      · have haid : a ∈ phaseIDs p := isPhase_of_ne_unstarted p a (by rw [ha]; decide)
        by_cases hk : keyOf p0 a = keyOf p0 b
        · rcases hc.2.2 a haid ha with h1 | h1
          · left
            rw [hk, ← hkey b]
            exact h1
          · rw [← hkey a, ← hkey b] at hk
            exact absurd hk h1
        · right
          exact hk
      · exact absurd hb (by decide)
      · exact absurd hb (by decide)
    · rw [hsu_other a hax] at ha
      rw [hsu_other b hbx] at hb
      exact hM a b hab ha hb

theorem trace_engineInv {handlerOk : String → Bool} {p0 : Plan} {labs : List Label}
    {u : Plan} (h0 : AllUnstarted p0) (ht : Trace handlerOk p0 labs u) :
    EngineInv handlerOk p0 u := by
  have key : ∀ p labs u, Trace handlerOk p labs u →
      EngineInv handlerOk p0 p → EngineInv handlerOk p0 u := by
    intro p labs u ht
    induction ht with
    | done p => exact id
    | step p q r l labs hs ht ih => exact fun hi => ih (step_engineInv hs hi)
  exact key p0 labs u ht (engineInv_self handlerOk p0 h0)

/-! ## Blocked dependents and completed phases along traces -/

theorem transGen_cases_head {α : Type} {r : α → α → Prop} {a b : α}
    (h : Relation.TransGen r a b) : r a b ∨ ∃ c, r a c ∧ Relation.TransGen r c b := by
  induction h using Relation.TransGen.head_induction_on with
  | base h => exact Or.inl h
  | ih h' ht _ => exact Or.inr ⟨_, h', ht⟩

theorem trace_blocked (handlerOk : String → Bool) (f : String)
    (hf : handlerOk f = false) :
    ∀ p labs u, Trace handlerOk p labs u →
      stateOf p f ≠ .completed →
      (∀ g, Relation.TransGen (DepStep p) g f → stateOf p g = .unstarted) →
      stateOf u f ≠ .completed ∧
        ∀ g, Relation.TransGen (DepStep p) g f → stateOf u g = .unstarted := by
  intro p labs u ht
  induction ht with
  | done p => exact fun h1 h2 => ⟨h1, h2⟩
  | step p q r l labs hs ht ih =>
    intro h1 h2
    have hdq : DepStep q = DepStep p := by
      funext a b
      unfold DepStep
      rw [step_depsOf_eq hs]
    have h1q : stateOf q f ≠ .completed := step_not_completed_stable hs f hf h1
    have h2q : ∀ g, Relation.TransGen (DepStep p) g f → stateOf q g = .unstarted := by
      intro g hg
      obtain ⟨x, st, hqe, hx, hcase⟩ := step_dest hs
      subst hqe
      by_cases hgx : g = x
      · subst hgx
        rcases hcase with ⟨-, rfl, hc⟩ | ⟨-, rfl, hsx, -⟩ | ⟨-, rfl, hsx, -⟩
        · rcases transGen_cases_head hg with hd | ⟨m, hd, hm⟩
          · exact absurd (hc.2.1 f hd) h1
          · have hcm := hc.2.1 m hd
            rw [h2 m hm] at hcm
            exact absurd hcm (by decide)
        · rw [h2 g hg] at hsx
          exact absurd hsx (by decide)
        · rw [h2 g hg] at hsx
          exact absurd hsx (by decide)
      · rw [stateOf_setState_other p x g st hgx]
        exact h2 g hg
    have hres := ih h1q (by rw [hdq]; exact h2q)
    exact ⟨hres.1, hdq ▸ hres.2⟩

theorem trace_no_restart (handlerOk : String → Bool) :
    ∀ p labs u, Trace handlerOk p labs u → ∀ x, stateOf p x = .completed →
      Label.start x ∉ labs := by
  intro p labs u ht
  induction ht with
  | done p => intro x _; exact List.not_mem_nil _
  | step p q r l labs hs ht ih =>
    intro x hx
    simp only [List.mem_cons, not_or]
    constructor
    · intro hl
      subst hl
      obtain ⟨x', st, hqe, hx', hcase⟩ := step_dest hs
      rcases hcase with ⟨hls, -, hc⟩ | ⟨hls, -, -, -⟩ | ⟨hls, -, -, -⟩
      · injection hls with hxx
        subst hxx
        have h1 := hc.1
        exact absurd (h1.symm.trans hx) (by decide)
      · exact Label.noConfusion hls
      · exact Label.noConfusion hls
    · exact ih x (step_completed_stable hs x hx)

/-! ## Finite acyclic graphs: a sink always exists -/

theorem no_successor_of_acyclic (R : String → String → Prop) (S : List String)
    (hne : S ≠ []) (hacyc : ¬ ∃ v, Relation.TransGen R v v)
    (hsucc : ∀ x ∈ S, ∃ y ∈ S, R x y) : False := by
  have hf : ∀ a : { a : String // a ∈ S }, ∃ b : { a : String // a ∈ S }, R a.val b.val := by
    intro a
    obtain ⟨b, hb, hr⟩ := hsucc a.val a.property
    exact ⟨⟨b, hb⟩, hr⟩
  choose f hfR using hf
  obtain ⟨a0, ha0⟩ := List.exists_mem_of_ne_nil S hne
  have hiter : ∀ (k : Nat) (a : { a : String // a ∈ S }), 1 ≤ k →
      Relation.TransGen R a.val (f^[k] a).val := by
    intro k
    induction k with
    | zero => intro a h; exact absurd h (by omega)
    | succ k ih =>
      intro a _
      by_cases hk : 1 ≤ k
      · rw [Function.iterate_succ_apply']
        exact (ih a hk).tail (hfR _)
      · have hk0 : k = 0 := by omega
        subst hk0
        rw [Function.iterate_succ_apply', Function.iterate_zero_apply]
        exact Relation.TransGen.single (hfR a)
  have hmaps : ∀ k ∈ Finset.range (S.length + 1),
      (f^[k] ⟨a0, ha0⟩).val ∈ S.toFinset := by
    intro k _
    exact List.mem_toFinset.mpr (f^[k] ⟨a0, ha0⟩).property
  have hcard : S.toFinset.card < (Finset.range (S.length + 1)).card := by
    rw [Finset.card_range]
    exact Nat.lt_succ_of_le (List.toFinset_card_le S)
  obtain ⟨i, hi, j, hj, hij, heq⟩ :=
    Finset.exists_ne_map_eq_of_card_lt_of_maps_to hcard hmaps
  have key : ∀ i j : Nat, i < j → (f^[i] ⟨a0, ha0⟩).val = (f^[j] ⟨a0, ha0⟩).val → False := by
    intro i j hlt he
    have hsub : f^[i] ⟨a0, ha0⟩ = f^[j] ⟨a0, ha0⟩ := Subtype.ext he
    have hj' : f^[j] ⟨a0, ha0⟩ = f^[j - i] (f^[i] ⟨a0, ha0⟩) := by
      rw [← Function.iterate_add_apply]
      have h2 : j - i + i = j := by omega
      rw [h2]
    have htg := hiter (j - i) (f^[i] ⟨a0, ha0⟩) (by omega)
    rw [← hj', ← hsub] at htg
    exact hacyc ⟨_, htg⟩
  rcases Nat.lt_or_ge i j with h | h
  · exact key i j h heq
  · exact key j i (by omega) heq.symm

/-! ## Bounded reachability and the executable cycle check -/

theorem reachableB_sound (adj : String → List String) :
    ∀ (k : Nat) (x y : String), reachableB adj k x y = true →
      Relation.TransGen (fun a b => b ∈ adj a) x y := by
  intro k
  induction k with
  | zero => intro x y h; simp [reachableB] at h
  | succ k ih =>
    intro x y h
    simp only [reachableB, List.any_eq_true, Bool.or_eq_true, beq_iff_eq] at h
    obtain ⟨z, hz, hor⟩ := h
    rcases hor with rfl | h1
    · exact Relation.TransGen.single hz
    · exact Relation.TransGen.head hz (ih z y h1)

theorem transGen_reachableB (adj : String → List String) {x y : String}
    (h : Relation.TransGen (fun a b => b ∈ adj a) x y) :
    ∃ k, reachableB adj k x y = true := by
  induction h using Relation.TransGen.head_induction_on with
  | base h =>
    refine ⟨1, ?_⟩
    simp only [reachableB, List.any_eq_true, Bool.or_eq_true, beq_iff_eq]
    exact ⟨y, h, Or.inl rfl⟩
  | ih h' ht ihp =>
    obtain ⟨k, hk⟩ := ihp
    refine ⟨k + 1, ?_⟩
    simp only [reachableB, List.any_eq_true, Bool.or_eq_true, beq_iff_eq]
    exact ⟨_, h', Or.inr hk⟩

theorem reachableB_mono (adj : String → List String) :
    ∀ (k m : Nat), k ≤ m → ∀ x y,
      reachableB adj k x y = true → reachableB adj m x y = true := by
  intro k
  induction k with
  | zero => intro m _ x y h; simp [reachableB] at h
  | succ k ih =>
    intro m hm x y h
    obtain ⟨m', rfl⟩ : ∃ m', m = m' + 1 := ⟨m - 1, by omega⟩
    simp only [reachableB, List.any_eq_true, Bool.or_eq_true, beq_iff_eq] at h ⊢
    obtain ⟨z, hz, hor⟩ := h
    refine ⟨z, hz, ?_⟩
    rcases hor with h1 | h1
    · exact Or.inl h1
    · exact Or.inr (ih m' (by omega) z y h1)

theorem reachableB_chain (adj : String → List String) :
    ∀ (k : Nat) (x y : String), reachableB adj k x y = true →
      ∃ l : List String, l.length + 1 ≤ k ∧
        List.Chain (fun a b => b ∈ adj a) x (l ++ [y]) := by
  intro k
  induction k with
  | zero => intro x y h; simp [reachableB] at h
  | succ k ih =>
    intro x y h
    simp only [reachableB, List.any_eq_true, Bool.or_eq_true, beq_iff_eq] at h
    obtain ⟨z, hz, hor⟩ := h
    rcases hor with rfl | h1
    · refine ⟨[], by simp only [List.length_nil]; omega, ?_⟩
      rw [List.nil_append]
      exact List.Chain.cons hz List.Chain.nil
    · obtain ⟨l, hlen, hchain⟩ := ih z y h1
      refine ⟨z :: l, by simp only [List.length_cons]; omega, ?_⟩
      rw [List.cons_append]
      exact List.Chain.cons hz hchain

theorem chain_first {R : String → String → Prop} :
    ∀ (l : List String) (a y : String), List.Chain R a (l ++ [y]) → ∃ w, R a w := by
  intro l a y h
  cases l with
  | nil =>
    rw [List.nil_append] at h
    exact ⟨y, (List.chain_cons.mp h).1⟩
  | cons b t =>
    rw [List.cons_append] at h
    exact ⟨b, (List.chain_cons.mp h).1⟩

theorem chain_out_edges {R : String → String → Prop} :
    ∀ (l : List String) (a y : String), List.Chain R a (l ++ [y]) →
      ∀ z ∈ l, ∃ w, R z w := by
  intro l
  induction l with
  | nil => intro a y h z hz; simp at hz
  | cons b t ih =>
    intro a y h z hz
    rw [List.cons_append] at h
    have h2 := List.chain_cons.mp h
    rcases List.mem_cons.mp hz with rfl | hzt
    · exact chain_first t z y h2.2
    · exact ih b y h2.2 z hzt

theorem not_nodup_split {α : Type} [DecidableEq α] :
    ∀ (l : List α), ¬ l.Nodup →
      ∃ (l₁ : List α) (z : α) (l₂ l₃ : List α), l = l₁ ++ z :: l₂ ++ z :: l₃ := by
  intro l
  induction l with
  | nil => intro h; exact absurd List.nodup_nil h
  | cons a t ih =>
    intro h
    by_cases ha : a ∈ t
    · obtain ⟨s, t', rfl⟩ := List.append_of_mem ha
      exact ⟨[], a, s, t', by simp⟩
    · have ht : ¬ t.Nodup := fun hn => h (List.nodup_cons.mpr ⟨ha, hn⟩)
      obtain ⟨l₁, z, l₂, l₃, rfl⟩ := ih ht
      exact ⟨a :: l₁, z, l₂, l₃, rfl⟩

theorem chain_shorten {R : String → String → Prop} :
    ∀ (n : Nat) (l : List String) (x y : String), l.length ≤ n →
      List.Chain R x (l ++ [y]) →
      ∃ l' : List String, l'.Nodup ∧ (∀ z ∈ l', z ∈ l) ∧ List.Chain R x (l' ++ [y]) := by
  intro n
  induction n with
  | zero =>
    intro l x y hlen h
    have hl : l = [] := List.length_eq_zero.mp (by omega)
    subst hl
    exact ⟨[], List.nodup_nil, by simp, h⟩
  | succ n ih =>
    intro l x y hlen h
    by_cases hnd : l.Nodup
    · exact ⟨l, hnd, fun z hz => hz, h⟩
    · obtain ⟨l₁, z, l₂, l₃, rfl⟩ := not_nodup_split l hnd
      have hre : (l₁ ++ z :: l₂ ++ z :: l₃) ++ [y] = l₁ ++ z :: (l₂ ++ z :: (l₃ ++ [y])) := by
        simp
      rw [hre] at h
      have h1 := List.chain_split.mp h
      have h2 := List.chain_split.mp h1.2
      have hnew : List.Chain R x ((l₁ ++ z :: l₃) ++ [y]) := by
        have hre2 : (l₁ ++ z :: l₃) ++ [y] = l₁ ++ z :: (l₃ ++ [y]) := by simp
        rw [hre2]
        exact List.chain_split.mpr ⟨h1.1, h2.2⟩
      have hlen2 : (l₁ ++ z :: l₃).length ≤ n := by
        simp only [List.length_append, List.length_cons] at hlen ⊢
        omega
      obtain ⟨l', hnd', hsub, hch⟩ := ih (l₁ ++ z :: l₃) x y hlen2 hnew
      refine ⟨l', hnd', fun w hw => ?_, hch⟩
      have hw2 := hsub w hw
      simp only [List.mem_append, List.mem_cons] at hw2 ⊢
      tauto

theorem chain_to_reachableB (adj : String → List String) :
    ∀ (l : List String) (x y : String),
      List.Chain (fun a b => b ∈ adj a) x (l ++ [y]) →
      reachableB adj (l.length + 1) x y = true := by
  intro l
  induction l with
  | nil =>
    intro x y h
    rw [List.nil_append] at h
    simp only [List.length_nil, reachableB, List.any_eq_true, Bool.or_eq_true, beq_iff_eq]
    exact ⟨y, (List.chain_cons.mp h).1, Or.inl rfl⟩
  | cons b t ih =>
    intro x y h
    rw [List.cons_append] at h
    have h2 := List.chain_cons.mp h
    have hr := ih b y h2.2
    have hshow : reachableB adj ((b :: t).length + 1) x y =
        (adj x).any (fun z => z == y || reachableB adj (t.length + 1) z y) := rfl
    rw [hshow, List.any_eq_true]
    exact ⟨b, h2.1, by simp [hr]⟩

theorem hasCycleB_iff (p : Plan) : hasCycleB p = true ↔ HasCycle p := by
  constructor
  · intro h
    simp only [hasCycleB, List.any_eq_true] at h
    obtain ⟨x, hx, hr⟩ := h
    exact ⟨x, reachableB_sound (depsOf p) _ x x hr⟩
  · intro hcy
    obtain ⟨x, htg⟩ := hcy
    have htg' : Relation.TransGen (fun a b => b ∈ depsOf p a) x x := htg
    obtain ⟨k, hk⟩ := transGen_reachableB (depsOf p) htg'
    obtain ⟨l, hlen, hchain⟩ := reachableB_chain (depsOf p) k x x hk
    obtain ⟨l', hnd, hsub, hch⟩ := chain_shorten l.length l x x (le_refl _) hchain
    have hmem : ∀ z ∈ l', z ∈ phaseIDs p := by
      intro z hz
      obtain ⟨w, hw⟩ := chain_out_edges l' x x hch z hz
      refine isPhase_of_deps_nonempty p z (fun hnil => ?_)
      rw [hnil] at hw
      exact (List.not_mem_nil w) hw
    have hxmem : x ∈ phaseIDs p := by
      obtain ⟨w, hw⟩ := chain_first l' x x hch
      refine isPhase_of_deps_nonempty p x (fun hnil => ?_)
      rw [hnil] at hw
      exact (List.not_mem_nil w) hw
    have hlen' : l'.length ≤ p.phases.length := by
      have hsup : List.Subperm l' (phaseIDs p) :=
        List.subperm_of_subset hnd (fun z hz => hmem z hz)
      have hle := hsup.length_le
      simpa [phaseIDs] using hle
    simp only [hasCycleB, List.any_eq_true]
    refine ⟨x, hxmem, ?_⟩
    exact reachableB_mono (depsOf p) (l'.length + 1) (p.phases.length + 1) (by omega) x x
      (chain_to_reachableB (depsOf p) l' x x hch)

/-! ## Validate characterization -/

theorem validate_eq_none_iff (p : Plan) :
    Validate p = none ↔
      (phaseIDs p).Nodup
        ∧ (∀ ph ∈ p.phases, ∀ d ∈ ph.dependencies, d ∈ phaseIDs p)
        ∧ ¬ HasCycle p := by
  unfold Validate
  split_ifs with h1 h2 h3
  · have hc := (hasCycleB_iff p).mp h3
    simp [h1, h2, hc]
  · have hc : ¬ HasCycle p := fun hcy => h3 ((hasCycleB_iff p).mpr hcy)
    simp [h1, hc]
    exact h2
  · simp [h1, h2]
  · simp [h1]

theorem validate_eq_dup_iff (p : Plan) :
    Validate p = some .ErrDuplicatePhase ↔ ¬ (phaseIDs p).Nodup := by
  unfold Validate
  split_ifs with h1 h2 h3 <;> simp [h1]

theorem validate_eq_ref_iff (p : Plan) :
    Validate p = some .ErrInvalidReference ↔
      (phaseIDs p).Nodup
        ∧ ¬ ∀ ph ∈ p.phases, ∀ d ∈ ph.dependencies, d ∈ phaseIDs p := by
  unfold Validate
  split_ifs with h1 h2 h3
  · simp [h1]
    exact h2
  · simp [h1]
    exact h2
  · simp [h1, h2]
  · simp [h1]

theorem validate_eq_cyc_iff (p : Plan) :
    Validate p = some .ErrCyclicDependency ↔
      (phaseIDs p).Nodup
        ∧ (∀ ph ∈ p.phases, ∀ d ∈ ph.dependencies, d ∈ phaseIDs p)
        ∧ HasCycle p := by
  unfold Validate
  split_ifs with h1 h2 h3
  · have hc := (hasCycleB_iff p).mp h3
    simp [h1, hc]
    exact h2
  · have hc : ¬ HasCycle p := fun hcy => h3 ((hasCycleB_iff p).mpr hcy)
    simp [h1, h2, hc]
  · simp [h1, h2]
  · simp [h1]

/-! ## Rollback sweep lemmas -/

theorem rbStep_dest {p : Plan} {x : String} {q : Plan} (h : RbStep p x q) :
    q = setState p x .rolledBack ∧ canRollback p x := by
  cases h with
  | roll h => exact ⟨rfl, h⟩

theorem canRollback_isPhase {p : Plan} {x : String} (h : canRollback p x) :
    IsPhase p x :=
  isPhase_of_ne_unstarted p x (by rw [h.1]; decide)

theorem rbTrace_depsOf_eq {s : Plan} {seq : List String} {t : Plan}
    (h : RbTrace s seq t) (y : String) : depsOf t y = depsOf s y := by
  induction h with
  | done p => rfl
  | step p q r x seq hs ht ih =>
    obtain ⟨rfl, hcr⟩ := rbStep_dest hs
    rw [ih, depsOf_setState]

theorem rbTrace_phaseIDs_eq {s : Plan} {seq : List String} {t : Plan}
    (h : RbTrace s seq t) : phaseIDs t = phaseIDs s := by
  induction h with
  | done p => rfl
  | step p q r x seq hs ht ih =>
    obtain ⟨rfl, hcr⟩ := rbStep_dest hs
    rw [ih, phaseIDs_setState]

theorem rb_mem_completed {s : Plan} {seq : List String} {t : Plan}
    (h : RbTrace s seq t) : ∀ x ∈ seq, stateOf s x = .completed := by
  induction h with
  | done p => intro x hx; exact absurd hx (List.not_mem_nil x)
  | step p q r x seq hs ht ih =>
    obtain ⟨rfl, hcr⟩ := rbStep_dest hs
    intro z hz
    rcases List.mem_cons.mp hz with rfl | hzs
    · exact hcr.1
    · have hq := ih z hzs
      by_cases hzx : z = x
      · subst hzx
        rw [stateOf_setState_self p z .rolledBack (canRollback_isPhase hcr)] at hq
        exact absurd hq (by decide)
      · rw [stateOf_setState_other p x z .rolledBack hzx] at hq
        exact hq

theorem rb_stateOf_final {s : Plan} {seq : List String} {t : Plan}
    (h : RbTrace s seq t) :
    ∀ y, stateOf t y = if y ∈ seq then .rolledBack else stateOf s y := by
  induction h with
  | done p => intro y; simp
  | step p q r x seq hs ht ih =>
    obtain ⟨rfl, hcr⟩ := rbStep_dest hs
    intro y
    by_cases hyx : y = x
    · subst hyx
      rw [if_pos (List.mem_cons_self y seq), ih y]
      by_cases hys : y ∈ seq
      · rw [if_pos hys]
      · rw [if_neg hys, stateOf_setState_self p y .rolledBack (canRollback_isPhase hcr)]
    · simp only [List.mem_cons, hyx, false_or]
      rw [ih y]
      by_cases hys : y ∈ seq
      · rw [if_pos hys, if_pos hys]
      · rw [if_neg hys, if_neg hys, stateOf_setState_other p x y .rolledBack hyx]

theorem rb_nodup {s : Plan} {seq : List String} {t : Plan}
    (h : RbTrace s seq t) : seq.Nodup := by
  induction h with
  | done p => exact List.nodup_nil
  | step p q r x seq hs ht ih =>
    obtain ⟨rfl, hcr⟩ := rbStep_dest hs
    refine List.nodup_cons.mpr ⟨?_, ih⟩
    intro hx
    have hq := rb_mem_completed ht x hx
    rw [stateOf_setState_self p x .rolledBack (canRollback_isPhase hcr)] at hq
    exact absurd hq (by decide)

theorem rb_no_inProgress {s : Plan} {seq : List String} {t : Plan}
    (h : RbTrace s seq t) (hs : ∀ y, stateOf s y ≠ .inProgress) :
    ∀ y, stateOf t y ≠ .inProgress := by
  intro y
  rw [rb_stateOf_final h y]
  by_cases hys : y ∈ seq
  · rw [if_pos hys]
    decide
  · rw [if_neg hys]
    exact hs y

/-! ## Rollback ordering -/

theorem sublist_pair_trans {a b c : String} :
    ∀ (seq : List String), seq.Nodup →
      List.Sublist [a, b] seq → List.Sublist [b, c] seq →
      List.Sublist [a, c] seq := by
  intro seq
  induction seq with
  | nil => intro _ h1 _; exact absurd (List.sublist_nil.mp h1) (by simp)
  | cons s t ih =>
    intro hnd h1 h2
    have hs : s ∉ t := (List.nodup_cons.mp hnd).1
    have hndt : t.Nodup := (List.nodup_cons.mp hnd).2
    cases h1 with
    | cons a1 h1x =>
      cases h2 with
      | cons a2 h2x => exact List.Sublist.cons _ (ih hndt h1x h2x)
      | cons₂ a2 h2x => exact absurd (h1x.subset (by simp)) hs
    | cons₂ a1 h1x =>
      cases h2 with
      | cons a2 h2x =>
        exact List.Sublist.cons₂ _ (List.singleton_sublist.mpr (h2x.subset (by simp)))
      | cons₂ a2 h2x => exact absurd (List.singleton_sublist.mp h1x) hs

theorem rb_order_direct :
    ∀ (s : Plan) (seq : List String) (t : Plan), RbTrace s seq t →
      ∀ g x, x ∈ depsOf s g → stateOf s g = .completed → stateOf s x = .completed →
        x ≠ g → x ∈ seq → List.Sublist [g, x] seq := by
  intro s seq t hrb
  induction hrb with
  | done p => intro g x _ _ _ _ hx; exact absurd hx (List.not_mem_nil x)
  | step p q r r0 seq hs ht ih =>
    intro g x hdep hg hx hxg hxmem
    obtain ⟨rfl, hcr⟩ := rbStep_dest hs
    by_cases hr0x : r0 = x
    · subst hr0x
      have hgid : g ∈ phaseIDs p := isPhase_of_ne_unstarted p g (by rw [hg]; decide)
      exact absurd hg (hcr.2 g hgid hdep).1
    · have hxseq : x ∈ seq := by
        rcases List.mem_cons.mp hxmem with h' | h'
        · exact absurd h'.symm hr0x
        · exact h'
      by_cases hr0g : r0 = g
      · subst hr0g
        exact List.Sublist.cons₂ _ (List.singleton_sublist.mpr hxseq)
      · have hdq : x ∈ depsOf (setState p r0 .rolledBack) g := by
          rw [depsOf_setState]
          exact hdep
        have hgq : stateOf (setState p r0 .rolledBack) g = .completed := by
          rw [stateOf_setState_other p r0 g _ (fun h' => hr0g h'.symm)]
          exact hg
        have hxq : stateOf (setState p r0 .rolledBack) x = .completed := by
          rw [stateOf_setState_other p r0 x _ (fun h' => hr0x h'.symm)]
          exact hx
        exact List.Sublist.cons _ (ih g x hdq hgq hxq hxg hxseq)

theorem completed_closure (p0 s : Plan)
    (hA : ∀ y, stateOf s y ≠ .unstarted →
      IsPhase p0 y ∧ ∀ d ∈ depsOf p0 y, stateOf s d = .completed) :
    ∀ g x, Relation.TransGen (DepStep p0) g x → stateOf s g = .completed →
      stateOf s x = .completed := by
  intro g x htg
  induction htg using Relation.TransGen.head_induction_on with
  | base h =>
    intro hc
    exact (hA _ (by rw [hc]; decide)).2 x h
  | ih h' ht ihp =>
    intro hc
    exact ihp ((hA _ (by rw [hc]; decide)).2 _ h')

theorem rb_order_trans (p0 s : Plan) (seq : List String) (t : Plan)
    (hrb : RbTrace s seq t)
    (hacyc : ¬ HasCycle p0)
    (hdepseq : ∀ y, depsOf s y = depsOf p0 y)
    (hA : ∀ y, stateOf s y ≠ .unstarted →
      IsPhase p0 y ∧ ∀ d ∈ depsOf p0 y, stateOf s d = .completed)
    (hcompl : ∀ z, stateOf s z = .completed → z ∈ seq) :
    ∀ g x, Relation.TransGen (DepStep p0) g x → stateOf s g = .completed →
      stateOf s x = .completed → List.Sublist [g, x] seq := by
  have hnd := rb_nodup hrb
  intro g x htg
  induction htg with
  | @single w h =>
    intro hg hw
    have hwg : w ≠ g := by
      intro h'
      subst h'
      exact hacyc ⟨_, Relation.TransGen.single h⟩
    exact rb_order_direct s seq t hrb g w (by rw [hdepseq g]; exact h) hg hw hwg
      (hcompl w hw)
  | @tail b w hgb hbw ih =>
    intro hg hw
    have hb : stateOf s b = .completed := completed_closure p0 s hA g b hgb hg
    have h1 : List.Sublist [g, b] seq := ih hg hb
    have hwb : w ≠ b := by
      intro h'
      subst h'
      exact hacyc ⟨_, Relation.TransGen.single hbw⟩
    have h2 : List.Sublist [b, w] seq :=
      rb_order_direct s seq t hrb b w (by rw [hdepseq b]; exact hbw) hb hw hwb
        (hcompl w hw)
    exact sublist_pair_trans seq hnd h1 h2

theorem rb_completeness (p0 s : Plan) (seq : List String) (t : Plan)
    (hacyc : ¬ HasCycle p0)
    (hids : phaseIDs s = phaseIDs p0)
    (hdepseq : ∀ y, depsOf s y = depsOf p0 y)
    (hnip : ∀ y, stateOf s y ≠ .inProgress)
    (hrb : RbTrace s seq t) (hrterm : RbTerminal t) :
    ∀ x, stateOf s x = .completed → x ∈ seq := by
  intro x hx
  by_contra hxn
  have hxf : stateOf t x = .completed := by
    rw [rb_stateOf_final hrb x, if_neg hxn]
    exact hx
  have hids_t : phaseIDs t = phaseIDs p0 := by rw [rbTrace_phaseIDs_eq hrb, hids]
  have hdeps_t : ∀ y, depsOf t y = depsOf p0 y := fun y => by
    rw [rbTrace_depsOf_eq hrb, hdepseq]
  have hnip_t : ∀ y, stateOf t y ≠ .inProgress := rb_no_inProgress hrb hnip
  refine no_successor_of_acyclic (fun a b => a ∈ depsOf p0 b)
    ((phaseIDs p0).filter (fun z => stateOf t z == PhaseState.completed)) ?_ ?_ ?_
  · have hxp : x ∈ phaseIDs p0 := by
      rw [← hids]
      exact isPhase_of_ne_unstarted s x (by rw [hx]; decide)
    have hxS : x ∈ (phaseIDs p0).filter (fun z => stateOf t z == PhaseState.completed) :=
      List.mem_filter.mpr ⟨hxp, by simp [hxf]⟩
    exact List.ne_nil_of_mem hxS
  · intro hv
    obtain ⟨v, hv⟩ := hv
    exact hacyc ⟨v, Relation.transGen_swap.mp hv⟩
  · intro z hz
    have hzmem := List.mem_filter.mp hz
    have hzc : stateOf t z = .completed := by
      have h2 := hzmem.2
      simpa using h2
    have hznot := hrterm z (by rw [hids_t]; exact hzmem.1)
    unfold canRollback at hznot
    push_neg at hznot
    obtain ⟨g, hgmem, hgdep, hgbad⟩ := hznot hzc
    have hgc : stateOf t g = .completed := by
      by_contra h'
      exact hnip_t g (hgbad h')
    refine ⟨g, List.mem_filter.mpr ⟨by rw [← hids_t]; exact hgmem, by simp [hgc]⟩, ?_⟩
    show z ∈ depsOf p0 g
    rw [← hdeps_t g]
    exact hgdep

/-! ## Started phases stay started -/

theorem step_ne_unstarted_stable {handlerOk : String → Bool} {p : Plan} {l : Label}
    {q : Plan} (h : Step handlerOk p l q) (y : String)
    (hy : stateOf p y ≠ .unstarted) : stateOf q y ≠ .unstarted := by
  obtain ⟨x, st, rfl, hx, hcase⟩ := step_dest h
  by_cases hyx : y = x
  · subst hyx
    rw [stateOf_setState_self p y st hx]
    rcases hcase with ⟨-, rfl, -⟩ | ⟨-, rfl, -, -⟩ | ⟨-, rfl, -, -⟩ <;> decide
  · rw [stateOf_setState_other p x y st hyx]
    exact hy

theorem trace_ne_unstarted_stable {handlerOk : String → Bool} {p : Plan}
    {labs : List Label} {u : Plan} (h : Trace handlerOk p labs u) (y : String)
    (hy : stateOf p y ≠ .unstarted) : stateOf u y ≠ .unstarted := by
  induction h with
  | done p => exact hy
  | step p q r l labs hs ht ih => exact ih (step_ne_unstarted_stable hs y hy)

theorem trace_started (handlerOk : String → Bool) :
    ∀ p labs u, Trace handlerOk p labs u → ∀ f, Label.start f ∈ labs →
      stateOf u f ≠ .unstarted := by
  intro p labs u ht
  induction ht with
  | done p => intro f hf; exact absurd hf (List.not_mem_nil _)
  | step p q r l labs hs ht ih =>
    intro f hf
    rcases List.mem_cons.mp hf with hl | hl
    · obtain ⟨x, st, rfl, hx, hcase⟩ := step_dest hs
      rcases hcase with ⟨hls, rfl, -⟩ | ⟨hls, rfl, -, -⟩ | ⟨hls, rfl, -, -⟩
      · have hls2 : Label.start f = Label.start x := hl.trans hls
        injection hls2 with hxf
        subst hxf
        refine trace_ne_unstarted_stable ht f ?_
        rw [stateOf_setState_self p f .inProgress hx]
        decide
      · exact Label.noConfusion (hl.trans hls)
      · exact Label.noConfusion (hl.trans hls)
    · exact ih f hl

/-! ## Terminal-state characterization and determinacy -/

theorem terminal_char (handlerOk : String → Bool) (p0 : Plan) (labs : List Label)
    (u : Plan) (h0 : AllUnstarted p0) (ht : Trace handlerOk p0 labs u)
    (hterm : Terminal u) :
    ∀ x, IsPhase p0 x →
      (stateOf u x = .completed ↔
        handlerOk x = true ∧ ∀ d ∈ depsOf p0 x, stateOf u d = .completed)
      ∧ (stateOf u x = .failed ↔
        handlerOk x = false ∧ ∀ d ∈ depsOf p0 x, stateOf u d = .completed)
      ∧ (stateOf u x = .unstarted ↔ ∃ d ∈ depsOf p0 x, stateOf u d ≠ .completed) := by
  obtain ⟨hshape, hA, hB, hC, hS, hM⟩ := trace_engineInv h0 ht
  have hids : phaseIDs u = phaseIDs p0 := by
    have h1 := congrArg phaseIDs hshape
    rw [phaseIDs_planView] at h1
    exact h1
  have hdeps : ∀ y, depsOf u y = depsOf p0 y := fun y => by
    have h1 := congrArg (fun pl => depsOf pl y) hshape
    simp only at h1
    rw [depsOf_planView] at h1
    exact h1
  intro x hx
  have hxu : x ∈ phaseIDs u := by
    rw [hids]
    exact hx
  have htx := hterm x hxu
  refine ⟨⟨?_, ?_⟩, ⟨?_, ?_⟩, ⟨?_, ?_⟩⟩
  · intro hc
    exact ⟨hB x hc, (hA x (by rw [hc]; decide)).2⟩
  · rintro ⟨hok, hdc⟩
    cases hcs : stateOf u x with
    | unstarted =>
      exact absurd (fun d hd => hdc d (by rw [← hdeps x]; exact hd)) (htx.2 hcs)
    | inProgress => exact absurd hcs htx.1
    | completed => rfl
    | failed =>
      rw [hC x hcs] at hok
      exact Bool.noConfusion hok
    | rolledBack => exact absurd hcs (hS x)
  · intro hf
    exact ⟨hC x hf, (hA x (by rw [hf]; decide)).2⟩
  · rintro ⟨hok, hdc⟩
    cases hcs : stateOf u x with
    | unstarted =>
      exact absurd (fun d hd => hdc d (by rw [← hdeps x]; exact hd)) (htx.2 hcs)
    | inProgress => exact absurd hcs htx.1
    | completed =>
      rw [hB x hcs] at hok
      exact Bool.noConfusion hok
    | failed => rfl
    | rolledBack => exact absurd hcs (hS x)
  · intro hu
    by_contra hne
    push_neg at hne
    exact (htx.2 hu) (fun d hd => hne d (by rw [hdeps x] at hd; exact hd))
  · rintro ⟨d, hd, hdc⟩
    cases hcs : stateOf u x with
    | unstarted => rfl
    | inProgress => exact absurd hcs htx.1
    | completed => exact absurd ((hA x (by rw [hcs]; decide)).2 d hd) hdc
    | failed => exact absurd ((hA x (by rw [hcs]; decide)).2 d hd) hdc
    | rolledBack => exact absurd hcs (hS x)

theorem execute_deterministic (handlerOk : String → Bool) (p0 : Plan)
    (h0 : AllUnstarted p0) (hv : Validate p0 = none)
    {labs1 labs2 : List Label} {t1 t2 : Plan}
    (ht1 : Trace handlerOk p0 labs1 t1) (hT1 : Terminal t1)
    (ht2 : Trace handlerOk p0 labs2 t2) (hT2 : Terminal t2) : t1 = t2 := by
  have hacyc : ¬ HasCycle p0 := ((validate_eq_none_iff p0).mp hv).2.2
  have hchar1 := terminal_char handlerOk p0 labs1 t1 h0 ht1 hT1
  have hchar2 := terminal_char handlerOk p0 labs2 t2 h0 ht2 hT2
  obtain ⟨hshape1, -, -, -, -, -⟩ := trace_engineInv h0 ht1
  obtain ⟨hshape2, -, -, -, -, -⟩ := trace_engineInv h0 ht2
  have hids1 : phaseIDs t1 = phaseIDs p0 := by
    have h1 := congrArg phaseIDs hshape1
    rw [phaseIDs_planView] at h1
    exact h1
  have hids2 : phaseIDs t2 = phaseIDs p0 := by
    have h1 := congrArg phaseIDs hshape2
    rw [phaseIDs_planView] at h1
    exact h1
  have hagree : ∀ x ∈ phaseIDs p0, stateOf t1 x = stateOf t2 x := by
    by_contra hne
    push_neg at hne
    obtain ⟨x0, hx0, hne0⟩ := hne
    refine no_successor_of_acyclic (DepStep p0)
      ((phaseIDs p0).filter (fun z => decide (stateOf t1 z ≠ stateOf t2 z))) ?_ ?_ ?_
    · exact List.ne_nil_of_mem (List.mem_filter.mpr ⟨hx0, by simp [hne0]⟩)
    · intro hv'
      obtain ⟨v, hv'⟩ := hv'
      exact hacyc ⟨v, hv'⟩
    · intro z hz
      have hzmem := List.mem_filter.mp hz
      have hzne : stateOf t1 z ≠ stateOf t2 z := by simpa using hzmem.2
      have hzp : IsPhase p0 z := hzmem.1
      by_contra hns
      push_neg at hns
      have hdagree : ∀ d ∈ depsOf p0 z, stateOf t1 d = stateOf t2 d := by
        intro d hd
        by_cases hdp : d ∈ phaseIDs p0
        · by_contra hdne
          exact hns d (List.mem_filter.mpr ⟨hdp, by simp [hdne]⟩) hd
        · have e1 : stateOf t1 d = .unstarted := by
            by_contra he
            exact hdp (by rw [← hids1]; exact isPhase_of_ne_unstarted t1 d he)
          have e2 : stateOf t2 d = .unstarted := by
            by_contra he
            exact hdp (by rw [← hids2]; exact isPhase_of_ne_unstarted t2 d he)
          rw [e1, e2]
      by_cases hall : ∀ d ∈ depsOf p0 z, stateOf t1 d = .completed
      · have hall2 : ∀ d ∈ depsOf p0 z, stateOf t2 d = .completed := fun d hd => by
          rw [← hdagree d hd]
          exact hall d hd
        cases hok : handlerOk z with
        | true =>
          have c1 := ((hchar1 z hzp).1).mpr ⟨hok, hall⟩
          have c2 := ((hchar2 z hzp).1).mpr ⟨hok, hall2⟩
          exact hzne (c1.trans c2.symm)
        | false =>
          have c1 := ((hchar1 z hzp).2.1).mpr ⟨hok, hall⟩
          have c2 := ((hchar2 z hzp).2.1).mpr ⟨hok, hall2⟩
          exact hzne (c1.trans c2.symm)
      · push_neg at hall
        obtain ⟨d, hd, hdnc⟩ := hall
        have hdnc2 : stateOf t2 d ≠ .completed := by
          rw [← hdagree d hd]
          exact hdnc
        have u1 := ((hchar1 z hzp).2.2).mpr ⟨d, hd, hdnc⟩
        have u2 := ((hchar2 z hzp).2.2).mpr ⟨d, hd, hdnc2⟩
        exact hzne (u1.trans u2.symm)
  rw [hshape1, hshape2]
  exact planView_congr p0 _ _ hagree

/-! ## Claim theorems -/

/-- C1: for every supported Kubernetes bootstrap object (ClusterRole,
ClusterRoleBinding or PodSecurityPolicy) the upsert function returned by
GetUpsertBootstrapResourceFunc first attempts Create; a nil Create error
returns nil after the single Create call; a Create failure that is not
AlreadyExists is returned to the caller with no Update call; a Create
failure that is AlreadyExists falls back to Update and returns nil when
Update succeeds, so an AlreadyExists Create failure is never returned to
the caller, while an Update failure is returned. -/
theorem upsert_bootstrap_create_or_update (client : Clientset) (object : K8sObject)
    (h : object.supported = true) :
    (clientCreate client object = none →
      GetUpsertBootstrapResourceFunc client object = ([.create object], none))
    ∧ (∀ e, clientCreate client object = some e → e.alreadyExists = false →
      GetUpsertBootstrapResourceFunc client object = ([.create object], some (.k8s e)))
    ∧ (∀ e, clientCreate client object = some e → e.alreadyExists = true →
      clientUpdate client object = none →
      GetUpsertBootstrapResourceFunc client object =
        ([.create object, .update object], none))
    ∧ (∀ e e2, clientCreate client object = some e → e.alreadyExists = true →
      clientUpdate client object = some e2 →
      GetUpsertBootstrapResourceFunc client object =
        ([.create object, .update object], some (.k8s e2))) := by
  cases object with
  | unsupported d => simp [K8sObject.supported] at h
  | clusterRole name =>
    refine ⟨fun hc => ?_, fun e hc hae => ?_, fun e hc hae hu => ?_,
      fun e e2 hc hae hu => ?_⟩
    · simp only [clientCreate] at hc
      simp [GetUpsertBootstrapResourceFunc, hc]
    · simp only [clientCreate] at hc
      simp [GetUpsertBootstrapResourceFunc, hc, hae]
    · simp only [clientCreate] at hc
      simp only [clientUpdate] at hu
      simp [GetUpsertBootstrapResourceFunc, hc, hae, hu]
    · simp only [clientCreate] at hc
      simp only [clientUpdate] at hu
      simp [GetUpsertBootstrapResourceFunc, hc, hae, hu]
  | clusterRoleBinding name =>
    refine ⟨fun hc => ?_, fun e hc hae => ?_, fun e hc hae hu => ?_,
      fun e e2 hc hae hu => ?_⟩
    · simp only [clientCreate] at hc
      simp [GetUpsertBootstrapResourceFunc, hc]
    · simp only [clientCreate] at hc
      simp [GetUpsertBootstrapResourceFunc, hc, hae]
    · simp only [clientCreate] at hc
      simp only [clientUpdate] at hu
      simp [GetUpsertBootstrapResourceFunc, hc, hae, hu]
    · simp only [clientCreate] at hc
      simp only [clientUpdate] at hu
      simp [GetUpsertBootstrapResourceFunc, hc, hae, hu]
  | podSecurityPolicy name =>
    refine ⟨fun hc => ?_, fun e hc hae => ?_, fun e hc hae hu => ?_,
      fun e e2 hc hae hu => ?_⟩
    · simp only [clientCreate] at hc
      simp [GetUpsertBootstrapResourceFunc, hc]
    · simp only [clientCreate] at hc
      simp [GetUpsertBootstrapResourceFunc, hc, hae]
    · simp only [clientCreate] at hc
      simp only [clientUpdate] at hu
      simp [GetUpsertBootstrapResourceFunc, hc, hae, hu]
    · simp only [clientCreate] at hc
      simp only [clientUpdate] at hu
      simp [GetUpsertBootstrapResourceFunc, hc, hae, hu]

/-- Witness for C1: a ClusterRole whose Create fails with AlreadyExists and
whose Update succeeds is upserted with no error after a Create and an
Update call. -/
theorem upsert_bootstrap_create_or_update_witness :
    (K8sObject.clusterRole "cr").supported = true
    ∧ GetUpsertBootstrapResourceFunc
        ⟨fun _ => some ⟨true, "exists"⟩, fun _ => none, fun _ => none,
         fun _ => none, fun _ => none, fun _ => none⟩
        (.clusterRole "cr") =
      ([.create (.clusterRole "cr"), .update (.clusterRole "cr")], none) :=
  ⟨rfl, (upsert_bootstrap_create_or_update
    ⟨fun _ => some ⟨true, "exists"⟩, fun _ => none, fun _ => none,
     fun _ => none, fun _ => none, fun _ => none⟩
    (K8sObject.clusterRole "cr") rfl).2.2.1 ⟨true, "exists"⟩ rfl rfl rfl⟩

/-- C10: for every object that is not one of the three supported bootstrap
kinds, the upsert function returns a BadParameter error without performing
any Create or Update call. -/
theorem upsert_bootstrap_unsupported (client : Clientset) (object : K8sObject)
    (h : object.supported = false) :
    GetUpsertBootstrapResourceFunc client object = ([], some .badParameter) := by
  cases object with
  | clusterRole name => simp [K8sObject.supported] at h
  | clusterRoleBinding name => simp [K8sObject.supported] at h
  | podSecurityPolicy name => simp [K8sObject.supported] at h
  | unsupported d => rfl

/-- Witness for C10: upserting an unsupported object kind performs no API
call and reports BadParameter. -/
theorem upsert_bootstrap_unsupported_witness :
    (K8sObject.unsupported "ConfigMap").supported = false
    ∧ GetUpsertBootstrapResourceFunc
        ⟨fun _ => none, fun _ => none, fun _ => none,
         fun _ => none, fun _ => none, fun _ => none⟩
        (.unsupported "ConfigMap") = ([], some .badParameter) :=
  ⟨rfl, upsert_bootstrap_unsupported _ _ rfl⟩

/-- Counterexample to C2 as stated: when the last-uninstall-operation
lookup fails with a not-found error, GetUninstallStatus does not surface a
NotFound error; it returns success with a Completed status (the source
treats a not-found cluster as successfully deleted). -/
theorem getUninstallStatus_notFound_counterexample :
    GetUninstallStatus "example.com" (Except.error OpsError.notFound) =
      Except.ok { clusterName := "example.com", state := OperationStateCompleted,
                  step := 0, message := "", operationID := "" } := rfl

/-- C2 amended: on a not-found lookup failure GetUninstallStatus treats the
operation as completed and returns a success status in state
OperationStateCompleted; any other lookup error is returned to the caller;
a successful lookup yields the progress-entry projection (or the default
Completed status when the progress entry is nil). -/
theorem getUninstallStatus_characterization (clusterName : String)
    (getLast : Except OpsError (Option ProgressEntry)) :
    (∀ err, getLast = .error err → err.isNotFound = true →
      GetUninstallStatus clusterName getLast =
        .ok { clusterName := clusterName, state := OperationStateCompleted,
              step := 0, message := "", operationID := "" })
    ∧ (∀ err, getLast = .error err → err.isNotFound = false →
      GetUninstallStatus clusterName getLast = .error err)
    ∧ (getLast = .ok none →
      GetUninstallStatus clusterName getLast =
        .ok { clusterName := clusterName, state := OperationStateCompleted,
              step := 0, message := "", operationID := "" })
    ∧ (∀ pe, getLast = .ok (some pe) →
      GetUninstallStatus clusterName getLast =
        .ok { clusterName := clusterName, state := pe.state, step := pe.step,
              message := pe.message, operationID := pe.operationID }) := by
  refine ⟨fun err he hnf => ?_, fun err he hnf => ?_, fun he => ?_, fun pe he => ?_⟩
  · subst he
    simp [GetUninstallStatus, hnf]
  · subst he
    simp [GetUninstallStatus, hnf]
  · subst he
    simp [GetUninstallStatus]
  · subst he
    simp [GetUninstallStatus]

/-- Witness for the amended C2: a lookup failure that is not not-found is
propagated to the caller unchanged. -/
theorem getUninstallStatus_characterization_witness :
    GetUninstallStatus "c" (Except.error (OpsError.other "backend down")) =
      Except.error (OpsError.other "backend down") :=
  (getUninstallStatus_characterization "c" _).2.1 _ rfl rfl

/-- C9: ttl never returns a negative duration: it returns forever when t
is the zero time or t is not after the current time, and otherwise the
positive difference t minus now. -/
theorem ttl_spec (now t : Int) :
    0 ≤ ttl now t
    ∧ ((t = 0 ∨ t ≤ now) → ttl now t = forever)
    ∧ (t ≠ 0 → now < t → ttl now t = t - now ∧ 0 < ttl now t) := by
  refine ⟨?_, fun h => ?_, fun h1 h2 => ?_⟩ <;> unfold ttl forever <;> split_ifs <;> omega

/-- Witness for C9 at concrete instants. -/
theorem ttl_spec_witness :
    ttl 5 10 = 10 - 5 ∧ 0 < ttl 5 10 ∧ ttl 5 3 = forever ∧ ttl 5 0 = forever := by
  have h1 := (ttl_spec 5 10).2.2 (by decide) (by decide)
  have h2 := (ttl_spec 5 3).2.1 (Or.inr (by decide))
  have h3 := (ttl_spec 5 0).2.1 (Or.inl rfl)
  exact ⟨h1.1, h1.2, h2, h3⟩

/-- C8: the v1codec byte round-trip: DecodeBytesFromString inverts
EncodeBytesToString on every byte slice; and for every value that
json-marshals successfully, DecodeFromString of EncodeToString feeds
json.Unmarshal exactly the marshalled JSON image, so decoding succeeds
with the unmarshalled value whenever the external JSON round-trip does. -/
theorem v1codec_encode_decode_roundtrip {V : Type}
    (jsonMarshal : V → Option (List Nat)) (jsonUnmarshal : List Nat → Option V)
    (b : List Nat) (hb : ∀ x ∈ b, x < 256)
    (v : V) (data : List Nat) (hm : jsonMarshal v = some data)
    (hdata : ∀ x ∈ data, x < 256) :
    DecodeBytesFromString (EncodeBytesToString b) = some b
    ∧ ∀ s, EncodeToString jsonMarshal v = some s →
        DecodeFromString jsonUnmarshal s = jsonUnmarshal data := by
  refine ⟨base64_roundtrip b hb, fun s hs => ?_⟩
  unfold EncodeToString at hs
  rw [hm] at hs
  rw [Option.map_some'] at hs
  injection hs with hs2
  subst hs2
  unfold DecodeFromString
  rw [base64_roundtrip data hdata]
  rfl

/-- Witness for C8 at a concrete byte slice and a concrete marshalled
value. -/
theorem v1codec_encode_decode_roundtrip_witness :
    DecodeBytesFromString (EncodeBytesToString [0, 100, 255, 7]) = some [0, 100, 255, 7]
    ∧ DecodeFromString (fun l => some l) (base64Encode [1, 2]) = some [1, 2] := by
  have h := v1codec_encode_decode_roundtrip (fun l : List Nat => some l)
    (fun l => some l) [0, 100, 255, 7] (by decide) [1, 2] [1, 2] rfl (by decide)
  exact ⟨h.1, h.2 (base64Encode [1, 2]) rfl⟩

/-- C4: Validate returns ErrDuplicatePhase exactly on duplicated phase
ids, ErrInvalidReference exactly on (duplicate-free) plans with a
dependency that references no phase of the plan, ErrCyclicDependency
exactly on (otherwise well-formed) plans whose dependency graph has a
cycle, and accepts exactly the plans with unique ids, intra-plan
references and an acyclic graph.  Validate is a Lean function, hence pure
and side-effect free by construction. -/
theorem validate_spec (p : Plan) :
    (Validate p = none ↔
      (phaseIDs p).Nodup
        ∧ (∀ ph ∈ p.phases, ∀ d ∈ ph.dependencies, d ∈ phaseIDs p)
        ∧ ¬ HasCycle p)
    ∧ (Validate p = some .ErrDuplicatePhase ↔ ¬ (phaseIDs p).Nodup)
    ∧ (Validate p = some .ErrInvalidReference ↔
      (phaseIDs p).Nodup
        ∧ ¬ ∀ ph ∈ p.phases, ∀ d ∈ ph.dependencies, d ∈ phaseIDs p)
    ∧ (Validate p = some .ErrCyclicDependency ↔
      (phaseIDs p).Nodup
        ∧ (∀ ph ∈ p.phases, ∀ d ∈ ph.dependencies, d ∈ phaseIDs p)
        ∧ HasCycle p) :=
  ⟨validate_eq_none_iff p, validate_eq_dup_iff p, validate_eq_ref_iff p,
    validate_eq_cyc_iff p⟩

/-- C5: when the handler of phase f errs on every attempt of its budget
(handlerOk f = false), then along every execution every phase depending
directly or transitively on f stays Unstarted, and in every terminal state
of an execution that attempted f (a start event for f occurred), f is
Failed and the plan aggregate is Failed. -/
theorem failed_phase_spec (handlerOk : String → Bool) (p0 : Plan) (f : String)
    (h0 : AllUnstarted p0) (hf : handlerOk f = false) :
    (∀ labs u, Trace handlerOk p0 labs u →
      ∀ g, Relation.TransGen (DepStep p0) g f → stateOf u g = .unstarted)
    ∧ (∀ labs t, Trace handlerOk p0 labs t → Terminal t → Label.start f ∈ labs →
      stateOf t f = .failed ∧ planAggregate t = .failed) := by
  constructor
  · intro labs u ht g hg
    exact (trace_blocked handlerOk f hf p0 labs u ht
      (by rw [allUnstarted_stateOf p0 h0 f]; decide)
      (fun g' _ => allUnstarted_stateOf p0 h0 g')).2 g hg
  · intro labs t ht hterm hstart
    have hnu : stateOf t f ≠ .unstarted := trace_started handlerOk p0 labs t ht f hstart
    have hnc : stateOf t f ≠ .completed :=
      (trace_blocked handlerOk f hf p0 labs t ht
        (by rw [allUnstarted_stateOf p0 h0 f]; decide)
        (fun g' _ => allUnstarted_stateOf p0 h0 g')).1
    have hfid : f ∈ phaseIDs t := isPhase_of_ne_unstarted t f hnu
    have hni : stateOf t f ≠ .inProgress := (hterm f hfid).1
    obtain ⟨-, -, -, -, hS, -⟩ := trace_engineInv h0 ht
    have hff : stateOf t f = .failed := by
      cases hcs : stateOf t f with
      | unstarted => exact absurd hcs hnu
      | inProgress => exact absurd hcs hni
      | completed => exact absurd hcs hnc
      | failed => rfl
      | rolledBack => exact absurd hcs (hS f)
    refine ⟨hff, ?_⟩
    have hnall : ¬ ∀ x ∈ phaseIDs t, stateOf t x = .completed := by
      intro hall
      have hfc := hall f hfid
      rw [hff] at hfc
      exact absurd hfc (by decide)
    have hex : ∃ x ∈ phaseIDs t, stateOf t x = .failed := ⟨f, hfid, hff⟩
    unfold planAggregate
    rw [if_neg hnall, if_pos hex]

/-- Witness for C5 on the concrete plan planC5 with an always-failing
handler: after start and fail of phase f, f is Failed, the aggregate is
Failed and the dependent g never left Unstarted. -/
theorem failed_phase_spec_witness :
    AllUnstarted planC5
    ∧ stateOf planC5failed "f" = .failed
    ∧ planAggregate planC5failed = .failed
    ∧ stateOf planC5failed "g" = .unstarted := by
  have htr : Trace (fun _ => false) planC5 [Label.start "f", Label.fail "f"]
      planC5failed :=
    Trace.step _ _ _ _ _ (Step.start _ "f" (by decide) (by decide))
      (Trace.step _ _ _ _ _ (Step.fail _ "f" (by decide) rfl) (Trace.done _))
  have h := failed_phase_spec (fun _ => false) planC5 "f" (by decide) rfl
  have h2 := h.2 [Label.start "f", Label.fail "f"] planC5failed htr (by decide)
    (by decide)
  have h1 := h.1 [Label.start "f", Label.fail "f"] planC5failed htr "g"
    (Relation.TransGen.single (by decide))
  exact ⟨by decide, h2.1, h2.2, h1⟩

/-- C3: after a plan reaches aggregate state Failed (forward execution
ended, some phase Failed), every maximal rollback sweep invokes Rollback
for exactly the phases that were Completed, each exactly once (the event
list has no duplicates), and a phase is rolled back only after every
Completed phase depending on it directly or transitively: the dependent
appears strictly earlier in the sweep. -/
theorem rollback_spec (handlerOk : String → Bool) (p0 s : Plan)
    (labs : List Label) (seq : List String) (t : Plan)
    (h0 : AllUnstarted p0) (hv : Validate p0 = none)
    (ht : Trace handlerOk p0 labs s) (hterm : Terminal s)
    (hfail : planAggregate s = .failed)
    (hrb : RbTrace s seq t) (hrterm : RbTerminal t) :
    (∀ x, x ∈ seq ↔ stateOf s x = .completed)
    ∧ seq.Nodup
    ∧ (∀ g x, Relation.TransGen (DepStep p0) g x →
        stateOf s g = .completed → stateOf s x = .completed →
        List.Sublist [g, x] seq) := by
  have hacyc : ¬ HasCycle p0 := ((validate_eq_none_iff p0).mp hv).2.2
  obtain ⟨hshape, hA, -, -, -, -⟩ := trace_engineInv h0 ht
  have hids : phaseIDs s = phaseIDs p0 := by
    have h1 := congrArg phaseIDs hshape
    rw [phaseIDs_planView] at h1
    exact h1
  have hdeps : ∀ y, depsOf s y = depsOf p0 y := fun y => by
    have h1 := congrArg (fun pl => depsOf pl y) hshape
    simp only at h1
    rw [depsOf_planView] at h1
    exact h1
  have hnip : ∀ y, stateOf s y ≠ .inProgress := by
    intro y hy
    have hyid : y ∈ phaseIDs s := isPhase_of_ne_unstarted s y (by rw [hy]; decide)
    exact (hterm y hyid).1 hy
  have hcompl := rb_completeness p0 s seq t hacyc hids hdeps hnip hrb hrterm
  refine ⟨?_, rb_nodup hrb, ?_⟩
  · intro x
    exact ⟨rb_mem_completed hrb x, hcompl x⟩
  · exact rb_order_trans p0 s seq t hrb hacyc hdeps hA hcompl

/-- Witness for C3 on the concrete plan planC3: phase A completes, phase F
fails, and the maximal rollback sweep rolls back exactly A, once. -/
theorem rollback_spec_witness :
    Validate planC3 = none
    ∧ planAggregate planC3done = .failed
    ∧ (∀ x, x ∈ ["A"] ↔ stateOf planC3done x = .completed)
    ∧ List.Nodup ["A"] := by
  have htr : Trace handlerC3 planC3
      [Label.start "A", Label.succeed "A", Label.start "F", Label.fail "F"]
      planC3done :=
    Trace.step _ _ _ _ _ (Step.start _ "A" (by decide) (by decide))
      (Trace.step _ _ _ _ _ (Step.succeed _ "A" (by decide) rfl)
        (Trace.step _ _ _ _ _ (Step.start _ "F" (by decide) (by decide))
          (Trace.step _ _ _ _ _ (Step.fail _ "F" (by decide) rfl) (Trace.done _))))
  have hrb : RbTrace planC3done ["A"] planC3rolled :=
    RbTrace.step _ _ _ _ _ (RbStep.roll _ "A" (by decide)) (RbTrace.done _)
  have h := rollback_spec handlerC3 planC3 planC3done
    [Label.start "A", Label.succeed "A", Label.start "F", Label.fail "F"]
    ["A"] planC3rolled (by decide) (by decide) htr (by decide) (by decide) hrb
    (by decide)
  exact ⟨by decide, by decide, h.1, h.2.1⟩

/-- C6: a plan persisted mid-execution and resumed by re-running the
engine reaches exactly the same terminal plan as an uninterrupted run
(full plan equality, hence the same aggregate state), and no phase that
was already Completed at the resume point has its Execute handler invoked
again during the resumed run (no start event for it occurs). -/
theorem resume_spec (handlerOk : String → Bool) (p0 s : Plan) (labs0 : List Label)
    (h0 : AllUnstarted p0) (hv : Validate p0 = none)
    (hts : Trace handlerOk p0 labs0 s)
    (hmid1 : ∀ ph ∈ s.phases,
      ph.state = .unstarted ∨ ph.state = .inProgress ∨ ph.state = .completed)
    (hmid2 : ∃ x ∈ phaseIDs s, stateOf s x = .inProgress)
    {labs1 labs2 : List Label} {t1 t2 : Plan}
    (ht1 : Trace handlerOk p0 labs1 t1) (hT1 : Terminal t1)
    (ht2 : Trace handlerOk s labs2 t2) (hT2 : Terminal t2) :
    t1 = t2 ∧ ∀ x, stateOf s x = .completed → Label.start x ∉ labs2 := by
  constructor
  · exact execute_deterministic handlerOk p0 h0 hv ht1 hT1 (trace_append hts ht2) hT2
  · intro x hx
    exact trace_no_restart handlerOk s labs2 t2 ht2 x hx

/-- Witness for C6 on the concrete chain planC6: the run resumed from the
mid-execution state planC6mid ends in the same plan as the uninterrupted
run, and the already-Completed phase A is not restarted. -/
theorem resume_spec_witness :
    planC6done = planC6done ∧ Label.start "A" ∉ [Label.succeed "B"] := by
  have hts : Trace (fun _ => true) planC6
      [Label.start "A", Label.succeed "A", Label.start "B"] planC6mid :=
    Trace.step _ _ _ _ _ (Step.start _ "A" (by decide) (by decide))
      (Trace.step _ _ _ _ _ (Step.succeed _ "A" (by decide) rfl)
        (Trace.step _ _ _ _ _ (Step.start _ "B" (by decide) (by decide))
          (Trace.done _)))
  have ht1 : Trace (fun _ => true) planC6
      [Label.start "A", Label.succeed "A", Label.start "B", Label.succeed "B"]
      planC6done :=
    Trace.step _ _ _ _ _ (Step.start _ "A" (by decide) (by decide))
      (Trace.step _ _ _ _ _ (Step.succeed _ "A" (by decide) rfl)
        (Trace.step _ _ _ _ _ (Step.start _ "B" (by decide) (by decide))
          (Trace.step _ _ _ _ _ (Step.succeed _ "B" (by decide) rfl)
            (Trace.done _))))
  have ht2 : Trace (fun _ => true) planC6mid [Label.succeed "B"] planC6done :=
    Trace.step _ _ _ _ _ (Step.succeed _ "B" (by decide) rfl) (Trace.done _)
  have h := resume_spec (fun _ => true) planC6 planC6mid
    [Label.start "A", Label.succeed "A", Label.start "B"]
    (by decide) (by decide) hts (by decide) ⟨"B", by decide, by decide⟩
    ht1 (by decide) ht2 (by decide)
  exact ⟨h.1, h.2 "A" (by decide)⟩

/-- C7: in every state reachable by the engine from a fresh plan, no two
distinct phases with the same non-empty exclusivity key are
simultaneously InProgress; and phases with distinct keys and no
dependency between them can be dispatched concurrently: on the two-phase
example plan of the spec, a reachable state has both phases InProgress. -/
theorem exclusivity_spec :
    (∀ (handlerOk : String → Bool) (p0 : Plan) (labs : List Label) (u : Plan),
      AllUnstarted p0 → Trace handlerOk p0 labs u →
      ∀ x y, x ≠ y → stateOf u x = .inProgress → stateOf u y = .inProgress →
        keyOf p0 x = "" ∨ keyOf p0 x ≠ keyOf p0 y)
    ∧ (∃ labs u, Trace (fun _ => true) planC7 labs u
        ∧ stateOf u "A" = .inProgress ∧ stateOf u "B" = .inProgress) := by
  constructor
  · intro handlerOk p0 labs u h0 ht x y hxy hx hy
    obtain ⟨-, -, -, -, -, hM⟩ := trace_engineInv h0 ht
    exact hM x y hxy hx hy
  · refine ⟨[Label.start "A", Label.start "B"], planC7both, ?_, by decide, by decide⟩
    exact Trace.step _ _ _ _ _ (Step.start _ "A" (by decide) (by decide))
      (Trace.step _ _ _ _ _ (Step.start _ "B" (by decide) (by decide))
        (Trace.done _))

/-- Witness for C7: applied to the reachable state of planC7 with both
phases InProgress, the invariant certifies their keys differ. -/
theorem exclusivity_spec_witness :
    AllUnstarted planC7
    ∧ (keyOf planC7 "A" = "" ∨ keyOf planC7 "A" ≠ keyOf planC7 "B") := by
  have htr : Trace (fun _ => true) planC7 [Label.start "A", Label.start "B"]
      planC7both :=
    Trace.step _ _ _ _ _ (Step.start _ "A" (by decide) (by decide))
      (Trace.step _ _ _ _ _ (Step.start _ "B" (by decide) (by decide))
        (Trace.done _))
  exact ⟨by decide, exclusivity_spec.1 (fun _ => true) planC7 _ _ (by decide) htr
    "A" "B" (by decide) (by decide) (by decide)⟩

end Gravity
